import Mathlib

/-!
# Window registry of sdlUILib (`Core/WindowManager.cpp`)

A shallow embedding of `CoreUI::WindowManager` (window sequence and z-order, hit testing,
capture, activation, event registration, timers) and of `CoreUI::Tooltip`.

* A `Window*` / `WindowPtr` is modelled by the address of the object, a natural number.
  The objects themselves live in a heap, a list indexed by address, so that pointer
  comparison (`window->GetParent() == parent`) and string comparison of ids
  (`window->GetId() == id`) stay two different things, as they are in the source.
* `m_windows` (a `std::list<WindowPtr>`) is a `List WindowPtr`; the front of the list is
  painted first, the back is topmost.
* A thrown C++ exception is a value of `Exception`; operations that can throw return the
  outcome together with the state they leave behind.
* `RaiseChildren` is recursive over the child view of the registry and does not return
  when the parent pointers run in a cycle; its embedding takes a recursion budget and
  answers `none` when the budget is used up.
-/

namespace CoreUI

/-! ## Data model -/

/-- The value of a `Window*` (or of the pointer held by a `WindowPtr`): an address. -/
abbrev WindowPtr := Nat

/-- Screen rectangle `Rect(x, y, w, h)`. -/
structure Rect where
  x : Int
  y : Int
  w : Int
  h : Int
deriving DecidableEq, Repr

/-- The part of a `Window` object that the window manager reads: the id given at creation,
the parent pointer (`none` is `nullptr`), the rectangle and the creation flags. -/
structure Window where
  m_id : String
  m_parent : Option WindowPtr
  m_rect : Rect
  m_flags : Nat
deriving DecidableEq, Repr

/-- The window objects created so far; the object at address `p` is the `p`-th entry. -/
abbrev Heap := List Window

/-- The object behind `Window::GetNullWnd()`; also what reading an address that holds no
window yields in this model. -/
def nullWnd : Window := ⟨"", none, ⟨0, 0, 0, 0⟩, 0⟩

/-- Dereference of a window pointer. -/
def deref (heap : Heap) (p : WindowPtr) : Window := heap.getD p nullWnd

/-- The call `window->GetId()`. -/
def GetId (heap : Heap) (p : WindowPtr) : String := (deref heap p).m_id

/-- The call `window->GetParent()`: the parent pointer, `none` for `nullptr`. -/
def GetParent (heap : Heap) (p : WindowPtr) : Option WindowPtr := (deref heap p).m_parent

/-- The exceptions thrown by the window manager. -/
inductive Exception where
  | invalid_argument (what : String)
  | out_of_range (what : String)
deriving DecidableEq, Repr

/-- The two events `SetActive` posts. -/
inductive WindowEvent where
  | EVENT_WINDOW_ACTIVATED
  | EVENT_WINDOW_DEACTIVATED
deriving DecidableEq, Repr

/-- The state the window operations act on: the members `m_windows` and `m_activeWindow`
of the manager, the heap of window objects, and the log of `PostEvent` calls received by
windows (oldest first). -/
structure UIState where
  heap : Heap
  m_windows : List WindowPtr
  m_activeWindow : Option WindowPtr
  posted : List (WindowPtr × WindowEvent)
deriving DecidableEq, Repr

/-- The manager before any window is added, over a given heap. -/
def UIState.empty (heap : Heap) : UIState := ⟨heap, [], none, []⟩

/-! ## Lookup and creation -/

/-- `WindowManager::FindWindow`: throws on a null id, otherwise the first window of the
sequence whose id equals `id`, or `nullptr`. -/
def FindWindow (heap : Heap) (m_windows : List WindowPtr) (id : Option String) :
    Except Exception (Option WindowPtr) :=
  match id with
  | none => .error (.invalid_argument "id can't be null")
  | some s => .ok (m_windows.find? (fun it => s == GetId heap it))

/-- Modelled from the spec: `Window::Create` is not among the sources; the factory
"given id, renderer, parent, font resource, rect, flags produces a drawable window
object". The new object is placed at the first unused address. -/
def Window.Create (heap : Heap) (id : String) (parent : Option WindowPtr) (pos : Rect)
    (flags : Nat) : WindowPtr × Heap :=
  (heap.length, heap ++ [⟨id, parent, pos, flags⟩])

/-- `WindowManager::AddWindow(id, parent, pos, flags)`: the outcome (the new window, or the
exception) and the state after the call. -/
def AddWindow (st : UIState) (id : Option String) (parent : Option WindowPtr) (pos : Rect)
    (flags : Nat) : Except Exception WindowPtr × UIState :=
  match FindWindow st.heap st.m_windows id with
  | .error e => (.error e, st)
  | .ok (some _) => (.error (.invalid_argument ("windows already exists:" ++ id.getD "")), st)
  | .ok none =>
    let created := Window.Create st.heap (id.getD "") parent pos flags
    (.ok created.1,
      ⟨created.2, st.m_windows ++ [created.1], st.m_activeWindow, st.posted⟩)

/-- `WindowManager::GetWindowList(parent)`: the windows of the sequence whose parent
pointer equals `parent`, in sequence order. -/
def GetWindowList (heap : Heap) (m_windows : List WindowPtr) (parent : Option WindowPtr) :
    List WindowPtr :=
  m_windows.filter (fun window => GetParent heap window == parent)

/-- Modelled from the spec: `Window::GetChildWindows` is not among the sources; the
children of a window are "computed on demand as all windows whose parent == this", that
is the manager's window list for this window. -/
def GetChildWindows (heap : Heap) (m_windows : List WindowPtr) (win : WindowPtr) :
    List WindowPtr :=
  GetWindowList heap m_windows (some win)

/-! ## The raise algorithm -/

/-- `WindowManager::RaiseSingleWindow`: `find_if` for the first entry carrying the id of
`win`; when there is one, `splice` moves that entry to the end. -/
def RaiseSingleWindow (heap : Heap) (win : WindowPtr) (m_windows : List WindowPtr) :
    List WindowPtr :=
  let id := GetId heap win
  match m_windows.find? (fun window => GetId heap window == id) with
  | some found => m_windows.eraseP (fun window => GetId heap window == id) ++ [found]
  | none => m_windows

/-- The `for` loop of `RaiseChildren` over the snapshot of child windows, `raise` being
the recursive call. -/
def raiseEach (raise : WindowPtr → List WindowPtr → Option (List WindowPtr)) :
    List WindowPtr → List WindowPtr → Option (List WindowPtr)
  | [], m_windows => some m_windows
  | child :: rest, m_windows => (raise child m_windows).bind (raiseEach raise rest)

/-- `WindowManager::RaiseChildren`: raise `win`, then each child of `win` (the list is
taken once, after `win` was raised) recursively. `fuel` bounds the recursion depth;
`none` means the bound was reached. -/
def RaiseChildren (heap : Heap) : Nat → WindowPtr → List WindowPtr → Option (List WindowPtr)
  | 0, _, _ => none
  | fuel + 1, win, m_windows =>
    let raised := RaiseSingleWindow heap win m_windows
    raiseEach (RaiseChildren heap fuel) (GetChildWindows heap raised win) raised

/-- `WindowManager::MoveToFront`: nothing for `nullptr`; otherwise the subtree of the
parent (when there is one) and then the subtree of `win` are raised. `win->HasParent()`
and `win->GetParentWnd()` are read off the parent pointer: a window has a parent when the
pointer is not null, and the parent window is the one it points to. -/
def MoveToFront (heap : Heap) (fuel : Nat) (win : Option WindowPtr)
    (m_windows : List WindowPtr) : Option (List WindowPtr) :=
  match win with
  | none => some m_windows
  | some w =>
    match GetParent heap w with
    | some parent => (RaiseChildren heap fuel parent m_windows).bind (RaiseChildren heap fuel w)
    | none => RaiseChildren heap fuel w m_windows

/-- `WindowManager::SetActive`: nothing when `win` is the active window; otherwise the old
active window gets the deactivation event, `win` becomes active and gets the activation
event, and `win` is moved to front. -/
def SetActive (fuel : Nat) (win : Option WindowPtr) (st : UIState) : Option UIState :=
  if win = st.m_activeWindow then some st
  else
    let posted1 := match st.m_activeWindow with
      | some old => st.posted ++ [(old, WindowEvent.EVENT_WINDOW_DEACTIVATED)]
      | none => st.posted
    let posted2 := match win with
      | some w => posted1 ++ [(w, WindowEvent.EVENT_WINDOW_ACTIVATED)]
      | none => posted1
    (MoveToFront st.heap fuel win st.m_windows).map
      (fun ws => ⟨st.heap, ws, win, posted2⟩)

/-! ## Vocabulary of the properties -/

/-- No two windows of the sequence carry the same id. -/
def UniqueIds (heap : Heap) (ws : List WindowPtr) : Prop := (ws.map (GetId heap)).Nodup

instance (heap : Heap) (ws : List WindowPtr) : Decidable (UniqueIds heap ws) := by
  unfold UniqueIds; infer_instance

/-- Every window of the sequence is an object of the heap. -/
def Allocated (st : UIState) : Prop := ∀ p ∈ st.m_windows, p < st.heap.length

/-- The parent pointers of the windows of the sequence do not run in a cycle: some ranking
of the windows decreases strictly from every parent to its child. -/
def Acyclic (heap : Heap) (ws : List WindowPtr) : Prop :=
  ∃ height : WindowPtr → Nat, ∀ c ∈ ws, ∀ p, GetParent heap c = some p → height c < height p

/-- The subtree of `w` in the child view of the registry: `w` itself, and every window of
the sequence whose parent lies in the subtree. -/
inductive InSubtree (heap : Heap) (ws : List WindowPtr) (w : WindowPtr) : WindowPtr → Prop
  | root : InSubtree heap ws w w
  | child {p x : WindowPtr} : InSubtree heap ws w p → x ∈ ws → GetParent heap x = some p →
      InSubtree heap ws w x

/-- The descendants of `w`: the windows of the sequence whose parent lies in the subtree
of `w` (children, grandchildren, and so on). -/
def Descendant (heap : Heap) (ws : List WindowPtr) (w x : WindowPtr) : Prop :=
  ∃ p, InSubtree heap ws w p ∧ x ∈ ws ∧ GetParent heap x = some p

/-- In the sequence, `x` comes before `y`: both occur and the position of `x` is the
smaller one, so `y` is painted later and lies above `x`. -/
def Before (ws : List WindowPtr) (x y : WindowPtr) : Prop :=
  x ∈ ws ∧ y ∈ ws ∧ ws.indexOf x < ws.indexOf y

instance (ws : List WindowPtr) (x y : WindowPtr) : Decidable (Before ws x y) := by
  unfold Before; infer_instance

/-- Depth-first pre-order listing of the subtree of `w`: `w`, then the listing of each
child in sequence order. `depth` bounds the number of levels listed. -/
def preorder (heap : Heap) (ws : List WindowPtr) : Nat → WindowPtr → List WindowPtr
  | 0, _ => []
  | depth + 1, w => w :: (GetChildWindows heap ws w).flatMap (preorder heap ws depth)

/-- The sequence `ws` with the entries listed in `block` taken out of their places and
`block` put at the end. -/
def moveBlockToEnd (ws block : List WindowPtr) : List WindowPtr :=
  ws.filter (fun y => decide (y ∉ block)) ++ block

/-- States reached from an empty registry by calls of `AddWindow`, `RaiseSingleWindow`,
`RaiseChildren`, `MoveToFront` and `SetActive` with arbitrary arguments (a call of the
last three counts when it returns). -/
inductive Reachable : UIState → Prop
  | init (heap : Heap) : Reachable (UIState.empty heap)
  | addWindow {st : UIState} (id : Option String) (parent : Option WindowPtr) (pos : Rect)
      (flags : Nat) : Reachable st → Reachable (AddWindow st id parent pos flags).2
  | raiseSingleWindow {st : UIState} (win : WindowPtr) : Reachable st →
      Reachable ⟨st.heap, RaiseSingleWindow st.heap win st.m_windows, st.m_activeWindow,
        st.posted⟩
  | raiseChildren {st : UIState} (fuel : Nat) (win : WindowPtr) (ws : List WindowPtr) :
      Reachable st → RaiseChildren st.heap fuel win st.m_windows = some ws →
      Reachable ⟨st.heap, ws, st.m_activeWindow, st.posted⟩
  | moveToFront {st : UIState} (fuel : Nat) (win : Option WindowPtr) (ws : List WindowPtr) :
      Reachable st → MoveToFront st.heap fuel win st.m_windows = some ws →
      Reachable ⟨st.heap, ws, st.m_activeWindow, st.posted⟩
  | setActive {st st2 : UIState} (fuel : Nat) (win : Option WindowPtr) :
      Reachable st → SetActive fuel win st = some st2 → Reachable st2

/-- A window object with the given id and parent, at the origin, without flags. -/
def plainWindow (id : String) (parent : Option WindowPtr) : Window :=
  ⟨id, parent, ⟨0, 0, 0, 0⟩, 0⟩

/-- Four windows: `w` at 0, its children `c1` at 1 and `c2` at 2, and `g`, a child of
`c1`, at 3; as created by four `AddWindow` calls in this order. -/
def familyHeap : Heap :=
  [plainWindow "w" none, plainWindow "c1" (some 0), plainWindow "c2" (some 0),
    plainWindow "g" (some 1)]

/-- Five windows: a root `R` at 0, its children `A` at 1 and `B` at 2, `P` at 3 a child of
`A`, and `W` at 4 a child of `P`; as created by five `AddWindow` calls in this order. -/
def chainHeap : Heap :=
  [plainWindow "R" none, plainWindow "A" (some 0), plainWindow "B" (some 0),
    plainWindow "P" (some 1), plainWindow "W" (some 3)]

/-- Screen point `Point(x, y)`. -/
structure Point where
  x : Int
  y : Int
deriving DecidableEq, Repr

/-- The call `rect.Origin()`: the top-left corner of a rectangle. -/
def Rect.Origin (r : Rect) : Point := ⟨r.x, r.y⟩

/-- The value a C++ `int` holds after an arithmetic result `z` is stored in it
(two's complement, 32 bits); it is `z` itself when `z` is representable. -/
def wrapInt32 (z : Int) : Int := (z + 2147483648) % 4294967296 - 2147483648

/-- The hit zone `HIT_NOTHING`. -/
def HIT_NOTHING : Nat := 0

/-- Modelled from the spec: the type `HitResult` is not among the sources; it is a
"target window reference (nullable/empty = no hit), plus hit-specific metadata (e.g., which
sub-region was struck)". The metadata is the hit zone, `HIT_NOTHING` when nothing is hit. -/
structure HitResult where
  zone : Nat
  target : Option WindowPtr
deriving DecidableEq, Repr

/-- Modelled from the spec: the conversion of a `HitResult` to `bool` is not among the
sources; a hit result is "falsy/empty when nothing is hit". -/
def HitResult.toBool (hit : HitResult) : Bool := hit.zone != HIT_NOTHING

/-- A result `z` of `int` arithmetic is representable: no signed overflow occurs. -/
def InInt32 (z : Int) : Prop := -2147483648 ≤ z ∧ z < 2147483648

instance (z : Int) : Decidable (InInt32 z) := by
  unfold InInt32; infer_instance

/-- The `HitResult` that `return HIT_NOTHING;` produces. -/
def noHit : HitResult := ⟨HIT_NOTHING, none⟩

/-- The loop of `WindowManager::HitTest` over the windows in the order given: the first
non-empty per-window result is returned. `windowHitTest` is `Window::HitTest`, a
collaborator that is not among the sources. -/
def hitTestLoop (windowHitTest : WindowPtr → Point → HitResult) (pt : Point) :
    List WindowPtr → HitResult
  | [] => noHit
  | window :: rest =>
    let hitResult := windowHitTest window pt
    if hitResult.toBool then hitResult else hitTestLoop windowHitTest pt rest

/-- `WindowManager::HitTest`: the loop runs from `rbegin()` to `rend()`, that is over the
reversed sequence. -/
def HitTest (windowHitTest : WindowPtr → Point → HitResult) (m_windows : List WindowPtr)
    (pt : Point) : HitResult :=
  hitTestLoop windowHitTest pt m_windows.reverse

/-- The member `m_capture`. -/
structure CaptureInfo where
  Captured : Bool
  Target : HitResult
  Origin : Rect
  Delta : Point
deriving DecidableEq, Repr

/-- `WindowManager::StartCapture`: the new value of `m_capture`, which is also what the call
returns. `getRect target` is what `target->GetRect(true, false)` returns (`GetRect` is not
among the sources). The two `-=` are `int` subtractions. -/
def StartCapture (getRect : WindowPtr → Rect) (m_capture : CaptureInfo) (hit : HitResult)
    (pt : Point) : CaptureInfo :=
  match hit.toBool, hit.target with
  | true, some target =>
    let origin := getRect target
    ⟨true, hit, origin,
      ⟨wrapInt32 (origin.Origin.x - pt.x), wrapInt32 (origin.Origin.y - pt.y)⟩⟩
  | _, _ => m_capture

/-! ## Event registration -/

/-- The value `(Uint32)-1`. -/
def UINT32_MAX : Nat := 4294967295

/-- The members `m_registeredEvents` (name to id) and `m_registeredEventsReverse` (id to
name), and the values the host has returned so far from `SDL_RegisterEvents`, oldest
first. -/
structure EventRegistry where
  m_registeredEvents : String → Option Nat
  m_registeredEventsReverse : Nat → Option String
  hostReturned : List Nat

/-- The registry before any event type is registered. -/
def EventRegistry.empty : EventRegistry := ⟨fun _ => none, fun _ => none, []⟩

/-- `WindowManager::FindEventType`: the registered id, or `(Uint32)-1`. -/
def FindEventType (reg : EventRegistry) (type : String) : Nat :=
  match reg.m_registeredEvents type with
  | some eventId => eventId
  | none => UINT32_MAX

/-- `WindowManager::GetEventName`: the registered name, or `"<null>"`. -/
def GetEventName (reg : EventRegistry) (eventId : Nat) : String :=
  match reg.m_registeredEventsReverse eventId with
  | some name => name
  | none => "<null>"

/-- `WindowManager::GetEventType`: the outcome and the registry after the call. `hostId` is
the value `SDL_RegisterEvents(1)` returns if it is called. -/
def GetEventType (reg : EventRegistry) (type : Option String) (hostId : Nat) :
    Except Exception Nat × EventRegistry :=
  match type with
  | none => (.error (.invalid_argument "event type is null"), reg)
  | some s =>
    if FindEventType reg s = UINT32_MAX then
      if hostId = UINT32_MAX then
        (.error (.out_of_range " too many registered events"),
          ⟨reg.m_registeredEvents, reg.m_registeredEventsReverse, reg.hostReturned ++ [hostId]⟩)
      else
        (.ok hostId,
          ⟨Function.update reg.m_registeredEvents s (some hostId),
            Function.update reg.m_registeredEventsReverse hostId (some s),
            reg.hostReturned ++ [hostId]⟩)
    else (.ok (FindEventType reg s), reg)

/-! ## Timers -/

/-- The member `m_timers` (host timer handles, `0` is the null handle) and the arguments of
the `SDL_RemoveTimer` calls made so far, oldest first. -/
structure TimerTable where
  m_timers : List Nat
  removed : List Nat
deriving DecidableEq, Repr

/-- The table before any timer is added. -/
def TimerTable.empty : TimerTable := ⟨[], []⟩

/-- `WindowManager::AddTimer`: the returned handle, `(Uint32) m_timers.size()`, and the
table after the call. `hostTimer` is the handle `SDL_AddTimer` returns. -/
def AddTimer (tt : TimerTable) (_interval : Nat) (hostTimer : Nat) : Nat × TimerTable :=
  (tt.m_timers.length % 4294967296, ⟨tt.m_timers ++ [hostTimer], tt.removed⟩)

/-- The value of `m_timers.size() - 1` in the unsigned arithmetic of `size_t`, a type of
`sizeBits` bits. -/
def sizeMinusOne (sizeBits : Nat) (size : Nat) : Nat :=
  (size + 2 ^ sizeBits - 1) % 2 ^ sizeBits

/-- `WindowManager::DeleteTimer`: the outcome and the table after the call, or `none` when
the call reads `m_timers[timerID]` outside the vector, which has no defined behaviour. -/
def DeleteTimer (sizeBits : Nat) (tt : TimerTable) (timerID : Nat) :
    Option (Except Exception Unit × TimerTable) :=
  if timerID > sizeMinusOne sizeBits tt.m_timers.length then
    some (.error (.invalid_argument "invalid timer id"), tt)
  else
    match tt.m_timers[timerID]? with
    | some hostTimer => some (.ok (), ⟨tt.m_timers.set timerID 0, tt.removed ++ [hostTimer]⟩)
    | none => none

/-! ## Tooltip (`Core/Tooltip.cpp`) -/

/-- The value of a `WidgetRef`: an address. -/
abbrev WidgetPtr := Nat

/-- The members `m_wnd` and `m_owner` of the tooltip singleton. -/
structure Tooltip where
  m_wnd : Option WindowPtr
  m_owner : Option WidgetPtr
deriving DecidableEq, Repr

/-- The file-level constant `id` of `Tooltip.cpp`. -/
def Tooltip.id : String := "_tooltip"

/-- Modelled from the spec: `WindowManager::RemoveWindow` is not among the sources; a window
is "destroyed via a remove path that must also clear it from capture/active-window state
if referenced". The window that carries the id leaves the sequence, and the active-window
slot is cleared when it held that window. -/
def RemoveWindow (st : UIState) (id : String) : UIState :=
  match st.m_windows.find? (fun window => GetId st.heap window == id) with
  | some found =>
    ⟨st.heap, st.m_windows.eraseP (fun window => GetId st.heap window == id),
      if st.m_activeWindow = some found then none else st.m_activeWindow, st.posted⟩
  | none => st

/-- `Tooltip::Hide`: the tooltip and the manager after the call. -/
def Tooltip.Hide (tip : Tooltip × UIState) (owner : Option WidgetPtr) : Tooltip × UIState :=
  if tip.1.m_wnd.isSome && owner == tip.1.m_owner then
    (⟨none, tip.1.m_owner⟩, RemoveWindow tip.2 Tooltip.id)
  else tip

/-- The early return test of `Tooltip::Show`: a tooltip window exists, for the same owner,
with the same text. `getText` is `Window::GetText`, not among the sources. -/
def Tooltip.alreadyShown (getText : WindowPtr → String) (tip : Tooltip × UIState)
    (owner : Option WidgetPtr) (text : String) : Bool :=
  match tip.1.m_wnd with
  | some wnd => tip.1.m_owner == owner && getText wnd == text
  | none => false

/-- `Tooltip::Show`: the outcome, and the tooltip and the manager after the call.
`labelRect` is the rectangle of the label built for `text`, `size` the window size reported
by the manager, `flags` the value of `WIN_NOSCROLL | WIN_NOFOCUS | WIN_BORDERLESS`; the
label, the size and the flag constants are not among the sources. -/
def Tooltip.Show (getText : WindowPtr → String) (labelRect size : Rect) (flags : Nat)
    (tip : Tooltip × UIState) (owner : Option WidgetPtr) (pos : Point) (text : String) :
    Except Exception Unit × (Tooltip × UIState) :=
  if Tooltip.alreadyShown getText tip owner text then (.ok (), tip)
  else
    let hidden := Tooltip.Hide tip tip.1.m_owner
    let posx := if wrapInt32 (pos.x + labelRect.w) > size.w then wrapInt32 (size.w - labelRect.w)
      else pos.x
    let posy := wrapInt32 (pos.y - wrapInt32 (labelRect.h + 4))
    match AddWindow hidden.2 (some Tooltip.id) none ⟨posx, posy, labelRect.w, labelRect.h⟩ flags
      with
    | (.ok wnd, st) => (.ok (), (⟨some wnd, owner⟩, st))
    | (.error e, st) => (.error e, (⟨hidden.1.m_wnd, owner⟩, st))

/-! ## Vocabulary of the properties: events and timers -/

/-- Registries reached from the empty one by `GetEventType` calls, the host never
returning the same id twice: the value it would return is `(Uint32)-1` (no id left) or a
value it has not returned before. -/
inductive EventsReachable : EventRegistry → Prop
  | init : EventsReachable EventRegistry.empty
  | getEventType {reg : EventRegistry} (type : Option String) (hostId : Nat) :
      EventsReachable reg → (hostId = UINT32_MAX ∨ hostId ∉ reg.hostReturned) →
      EventsReachable (GetEventType reg type hostId).2

/-- The two event maps are inverse to each other, and every registered id is a value the
host has returned, other than `(Uint32)-1`. -/
def EventsConsistent (reg : EventRegistry) : Prop :=
  (∀ name e, reg.m_registeredEvents name = some e →
    reg.m_registeredEventsReverse e = some name ∧ e ≠ UINT32_MAX ∧ e ∈ reg.hostReturned) ∧
  (∀ e name, reg.m_registeredEventsReverse e = some name →
    reg.m_registeredEvents name = some e)

/-- A call made on the timer table. -/
inductive TimerOp where
  | add (interval hostTimer : Nat)
  | delete (timerID : Nat)
deriving DecidableEq, Repr

/-- Runs the calls in order; yields the handles the `AddTimer` calls returned, in call
order, and the final table. A `DeleteTimer` that throws leaves the run going; `none` when a
`DeleteTimer` has no defined behaviour. -/
def runTimerOps (sizeBits : Nat) : List TimerOp → TimerTable → Option (List Nat × TimerTable)
  | [], tt => some ([], tt)
  | .add interval hostTimer :: rest, tt =>
    (runTimerOps sizeBits rest (AddTimer tt interval hostTimer).2).map
      (fun r => ((AddTimer tt interval hostTimer).1 :: r.1, r.2))
  | .delete timerID :: rest, tt =>
    (DeleteTimer sizeBits tt timerID).bind (fun r => runTimerOps sizeBits rest r.2)

/-- The tooltip and the manager after `Show(owner 5, (620, 100), "hint")` on the registry of
`familyHeap` with a label of 40 by 12 on a 640 by 480 screen: the overlay window is the
new object at address 4. -/
def tooltipShown : Tooltip × UIState :=
  (⟨some 4, some 5⟩,
    ⟨familyHeap ++ [⟨"_tooltip", none, ⟨600, 84, 40, 12⟩, 7⟩], [0, 1, 2, 3, 4], none, []⟩)

theorem getId_append_of_lt (heap : Heap) (extra : List Window) (p : WindowPtr)
    (hp : p < heap.length) : GetId (heap ++ extra) p = GetId heap p := by
  simp [GetId, deref, List.getD_eq_getElem?_getD, List.getElem?_append_left hp]

theorem deref_create (heap : Heap) (obj : Window) : deref (heap ++ [obj]) heap.length = obj := by
  simp [deref, List.getD_eq_getElem?_getD]

theorem find_id_none_iff (heap : Heap) (ws : List WindowPtr) (s : String) :
    ws.find? (fun it => s == GetId heap it) = none ↔ ∀ w ∈ ws, GetId heap w ≠ s := by
  simp only [List.find?_eq_none, beq_iff_eq]
  constructor
  · intro h w hw e; exact h w hw e.symm
  · intro h w hw e; exact h w hw e.symm

theorem addWindow_fresh (st : UIState) (s : String) (parent : Option WindowPtr) (pos : Rect)
    (flags : Nat) (hfresh : ∀ w ∈ st.m_windows, GetId st.heap w ≠ s) :
    AddWindow st (some s) parent pos flags =
      (.ok st.heap.length, ⟨st.heap ++ [⟨s, parent, pos, flags⟩],
        st.m_windows ++ [st.heap.length], st.m_activeWindow, st.posted⟩) := by
  have h := (find_id_none_iff st.heap st.m_windows s).mpr hfresh
  simp [AddWindow, FindWindow, h, Window.Create]

theorem addWindow_present (st : UIState) (s : String) (parent : Option WindowPtr) (pos : Rect)
    (flags : Nat) (hdup : ∃ w ∈ st.m_windows, GetId st.heap w = s) :
    AddWindow st (some s) parent pos flags =
      (.error (.invalid_argument ("windows already exists:" ++ s)), st) := by
  cases hf : st.m_windows.find? (fun it => s == GetId st.heap it) with
  | none =>
    obtain ⟨w, hw, e⟩ := hdup
    exact absurd e ((find_id_none_iff st.heap st.m_windows s).mp hf w hw)
  | some found => simp [AddWindow, FindWindow, hf]

theorem addWindow_null (st : UIState) (parent : Option WindowPtr) (pos : Rect) (flags : Nat) :
    AddWindow st none parent pos flags = (.error (.invalid_argument "id can't be null"), st) := by
  simp [AddWindow, FindWindow]

/-- C1: `AddWindow` with a non-null id that some window of the sequence already carries
throws (`std::invalid_argument`) and leaves the whole state, the window sequence included,
exactly as it was. -/
theorem AddWindow_duplicate_fails (st : UIState) (s : String) (parent : Option WindowPtr)
    (pos : Rect) (flags : Nat) (hdup : ∃ w ∈ st.m_windows, GetId st.heap w = s) :
    (AddWindow st (some s) parent pos flags).1 =
        .error (.invalid_argument ("windows already exists:" ++ s)) ∧
      (AddWindow st (some s) parent pos flags).2 = st ∧
      (AddWindow st (some s) parent pos flags).2.m_windows = st.m_windows := by
  rw [addWindow_present st s parent pos flags hdup]
  exact ⟨rfl, rfl, rfl⟩

theorem AddWindow_duplicate_fails_witness :
    (∃ w ∈ (UIState.mk familyHeap [0, 1, 2, 3] none []).m_windows,
        GetId (UIState.mk familyHeap [0, 1, 2, 3] none []).heap w = "c2") ∧
      (AddWindow ⟨familyHeap, [0, 1, 2, 3], none, []⟩ (some "c2") (some 0) ⟨1, 2, 3, 4⟩ 0).2
        = ⟨familyHeap, [0, 1, 2, 3], none, []⟩ :=
  ⟨⟨2, by decide, by decide⟩,
    (AddWindow_duplicate_fails ⟨familyHeap, [0, 1, 2, 3], none, []⟩ "c2" (some 0) ⟨1, 2, 3, 4⟩ 0
      ⟨2, by decide, by decide⟩).2.1⟩

/-! ## The raise operations permute the sequence -/

theorem find_split {p : WindowPtr → Bool} {ws : List WindowPtr} {a : WindowPtr}
    (h : ws.find? p = some a) :
    ∃ pre post, ws = pre ++ a :: post ∧ (∀ x ∈ pre, p x = false) ∧ p a = true ∧
      ws.eraseP p = pre ++ post := by
  induction ws with
  | nil => simp at h
  | cons b t ih =>
    by_cases hb : p b = true
    · rw [List.find?_cons_of_pos _ hb] at h
      cases h
      exact ⟨[], t, rfl, by simp, hb, by simp [List.eraseP_cons_of_pos hb]⟩
    · rw [List.find?_cons_of_neg _ hb] at h
      obtain ⟨pre, post, e, hpre, ha, he⟩ := ih h
      refine ⟨b :: pre, post, by simp [e], ?_, ha, ?_⟩
      · intro x hx
        rcases List.mem_cons.mp hx with rfl | hx
        · simpa using hb
        · exact hpre x hx
      · rw [List.eraseP_cons_of_neg hb, he]; rfl

theorem raiseSingleWindow_of_find_none (heap : Heap) (win : WindowPtr) (ws : List WindowPtr)
    (hf : ws.find? (fun window => GetId heap window == GetId heap win) = none) :
    RaiseSingleWindow heap win ws = ws := by
  simp only [RaiseSingleWindow, hf]

theorem raiseSingleWindow_of_find_some (heap : Heap) (win : WindowPtr) (ws : List WindowPtr)
    (found : WindowPtr)
    (hf : ws.find? (fun window => GetId heap window == GetId heap win) = some found) :
    RaiseSingleWindow heap win ws =
      ws.eraseP (fun window => GetId heap window == GetId heap win) ++ [found] := by
  simp only [RaiseSingleWindow, hf]

theorem raiseSingleWindow_perm (heap : Heap) (win : WindowPtr) (ws : List WindowPtr) :
    (RaiseSingleWindow heap win ws).Perm ws := by
  cases hf : ws.find? (fun window => GetId heap window == GetId heap win) with
  | none => rw [raiseSingleWindow_of_find_none heap win ws hf]
  | some found =>
    rw [raiseSingleWindow_of_find_some heap win ws found hf]
    obtain ⟨pre, post, e, -, -, he⟩ := find_split hf
    rw [he]
    have h1 : (pre ++ post ++ [found]).Perm (found :: (pre ++ post)) :=
      List.perm_append_singleton found (pre ++ post)
    have h2 : (found :: (pre ++ post)).Perm (pre ++ found :: post) :=
      (@List.perm_middle _ found pre post).symm
    rw [e]
    exact h1.trans h2

theorem raiseEach_perm {raise : WindowPtr → List WindowPtr → Option (List WindowPtr)}
    (hraise : ∀ c acc r, raise c acc = some r → r.Perm acc) :
    ∀ (cs acc r : List WindowPtr), raiseEach raise cs acc = some r → r.Perm acc := by
  intro cs
  induction cs with
  | nil => intro acc r h; simp [raiseEach] at h; subst h; exact List.Perm.refl _
  | cons c rest ih =>
    intro acc r h
    simp only [raiseEach] at h
    cases h1 : raise c acc with
    | none => simp [h1] at h
    | some mid =>
      rw [h1] at h
      exact (ih mid r h).trans (hraise c acc mid h1)

theorem raiseChildren_perm (heap : Heap) :
    ∀ (fuel : Nat) (win : WindowPtr) (ws r : List WindowPtr),
      RaiseChildren heap fuel win ws = some r → r.Perm ws := by
  intro fuel
  induction fuel with
  | zero => intro win ws r h; simp [RaiseChildren] at h
  | succ n ih =>
    intro win ws r h
    simp only [RaiseChildren] at h
    exact (raiseEach_perm (fun c acc r2 => ih c acc r2) _ _ _ h).trans
      (raiseSingleWindow_perm heap win ws)

theorem moveToFront_perm (heap : Heap) (fuel : Nat) (win : Option WindowPtr)
    (ws r : List WindowPtr) (h : MoveToFront heap fuel win ws = some r) : r.Perm ws := by
  unfold MoveToFront at h
  cases win with
  | none => simp at h; subst h; exact List.Perm.refl _
  | some w =>
    simp only at h
    cases hp : GetParent heap w with
    | none => rw [hp] at h; exact raiseChildren_perm heap fuel w ws r h
    | some parent =>
      rw [hp] at h
      simp only at h
      cases h1 : RaiseChildren heap fuel parent ws with
      | none => simp [h1] at h
      | some mid =>
        rw [h1] at h
        exact (raiseChildren_perm heap fuel w mid r h).trans
          (raiseChildren_perm heap fuel parent ws mid h1)

theorem setActive_frame (fuel : Nat) (win : Option WindowPtr) (st st2 : UIState)
    (h : SetActive fuel win st = some st2) :
    st2.heap = st.heap ∧
      (st2.m_windows = st.m_windows ∨ MoveToFront st.heap fuel win st.m_windows = some st2.m_windows) := by
  unfold SetActive at h
  by_cases hw : win = st.m_activeWindow
  · simp [hw] at h; subst h; exact ⟨rfl, Or.inl rfl⟩
  · simp only [hw, if_false] at h
    cases hm : MoveToFront st.heap fuel win st.m_windows with
    | none => simp [hm] at h
    | some ws =>
      simp [hm] at h
      subst h
      exact ⟨rfl, Or.inr rfl⟩

theorem uniqueIds_of_perm {heap : Heap} {ws r : List WindowPtr} (hp : r.Perm ws)
    (h : UniqueIds heap ws) : UniqueIds heap r :=
  ((hp.map (GetId heap)).nodup_iff).mpr h

/-! ## Unique ids -/

theorem addWindow_cases (st : UIState) (id : Option String) (parent : Option WindowPtr)
    (pos : Rect) (flags : Nat) :
    ((∃ e, (AddWindow st id parent pos flags).1 = .error e) ∧
        (AddWindow st id parent pos flags).2 = st) ∨
      ∃ s, id = some s ∧ (∀ w ∈ st.m_windows, GetId st.heap w ≠ s) ∧
        AddWindow st id parent pos flags =
          (.ok st.heap.length, ⟨st.heap ++ [⟨s, parent, pos, flags⟩],
            st.m_windows ++ [st.heap.length], st.m_activeWindow, st.posted⟩) := by
  cases id with
  | none => left; rw [addWindow_null]; exact ⟨⟨_, rfl⟩, rfl⟩
  | some s =>
    by_cases hdup : ∃ w ∈ st.m_windows, GetId st.heap w = s
    · left; rw [addWindow_present st s parent pos flags hdup]; exact ⟨⟨_, rfl⟩, rfl⟩
    · right
      have hfresh : ∀ w ∈ st.m_windows, GetId st.heap w ≠ s :=
        fun w hw e => hdup ⟨w, hw, e⟩
      exact ⟨s, rfl, hfresh, addWindow_fresh st s parent pos flags hfresh⟩

theorem addWindow_keeps_uniqueIds (st : UIState) (id : Option String)
    (parent : Option WindowPtr) (pos : Rect) (flags : Nat)
    (hu : UniqueIds st.heap st.m_windows) (ha : Allocated st) :
    UniqueIds (AddWindow st id parent pos flags).2.heap
        (AddWindow st id parent pos flags).2.m_windows ∧
      Allocated (AddWindow st id parent pos flags).2 := by
  rcases addWindow_cases st id parent pos flags with ⟨-, h⟩ | ⟨s, -, hfresh, h⟩
  · rw [h]; exact ⟨hu, ha⟩
  · rw [h]
    constructor
    · show ((st.m_windows ++ [st.heap.length]).map
        (GetId (st.heap ++ [⟨s, parent, pos, flags⟩]))).Nodup
      have hmap : st.m_windows.map (GetId (st.heap ++ [⟨s, parent, pos, flags⟩])) =
          st.m_windows.map (GetId st.heap) :=
        List.map_congr_left (fun p hp => getId_append_of_lt st.heap _ p (ha p hp))
      have hnew : GetId (st.heap ++ [⟨s, parent, pos, flags⟩]) st.heap.length = s := by
        simp [GetId, deref_create]
      rw [List.map_append, hmap, List.map_singleton, hnew]
      refine List.Nodup.append hu (List.nodup_singleton s) ?_
      intro x hx hx2
      rw [List.mem_singleton] at hx2
      subst hx2
      obtain ⟨w, hw, e⟩ := List.mem_map.mp hx
      exact hfresh w hw e
    · intro p hp
      show p < (st.heap ++ [(⟨s, parent, pos, flags⟩ : Window)]).length
      rw [List.length_append, List.length_singleton]
      rcases List.mem_append.mp hp with hp | hp
      · exact Nat.lt_succ_of_lt (ha p hp)
      · rw [List.mem_singleton.mp hp]; exact Nat.lt_succ_self _

theorem allocated_of_perm {heap : Heap} {ws r : List WindowPtr} {a : Option WindowPtr}
    {ev ev2 : List (WindowPtr × WindowEvent)} {b : Option WindowPtr}
    (hp : r.Perm ws) (h : Allocated ⟨heap, ws, a, ev⟩) : Allocated ⟨heap, r, b, ev2⟩ :=
  fun p hpr => h p (hp.mem_iff.mp hpr)

theorem reachable_uniqueIds_allocated (st : UIState) (h : Reachable st) :
    UniqueIds st.heap st.m_windows ∧ Allocated st := by
  induction h with
  | init heap => exact ⟨List.nodup_nil, fun p hp => by simp [UIState.empty] at hp⟩
  | addWindow id parent pos flags _ ih =>
    exact addWindow_keeps_uniqueIds _ id parent pos flags ih.1 ih.2
  | raiseSingleWindow win _ ih =>
    exact ⟨uniqueIds_of_perm (raiseSingleWindow_perm _ win _) ih.1,
      allocated_of_perm (raiseSingleWindow_perm _ win _) ih.2⟩
  | raiseChildren fuel win ws _ hr ih =>
    exact ⟨uniqueIds_of_perm (raiseChildren_perm _ fuel win _ ws hr) ih.1,
      allocated_of_perm (raiseChildren_perm _ fuel win _ ws hr) ih.2⟩
  | moveToFront fuel win ws _ hr ih =>
    exact ⟨uniqueIds_of_perm (moveToFront_perm _ fuel win _ ws hr) ih.1,
      allocated_of_perm (moveToFront_perm _ fuel win _ ws hr) ih.2⟩
  | @setActive st st2 fuel win _ hr ih =>
    obtain ⟨hheap, hws⟩ := setActive_frame fuel win st st2 hr
    have hperm : st2.m_windows.Perm st.m_windows := by
      rcases hws with e | e
      · rw [e]
      · exact moveToFront_perm _ fuel win _ _ e
    refine ⟨?_, ?_⟩
    · rw [hheap]; exact uniqueIds_of_perm hperm ih.1
    · intro p hp
      rw [hheap]
      exact ih.2 p (hperm.mem_iff.mp hp)

/-- C2: id uniqueness is an invariant: in every state reached from an empty registry by
`AddWindow`, `RaiseSingleWindow`, `RaiseChildren`, `MoveToFront` and `SetActive` calls
(with any arguments) no two windows of the sequence carry the same id. -/
theorem Reachable_unique_ids (st : UIState) (h : Reachable st) :
    (st.m_windows.map (GetId st.heap)).Nodup ∧
      ∀ i j, i < j → j < st.m_windows.length →
        GetId st.heap (st.m_windows.getD i 0) ≠ GetId st.heap (st.m_windows.getD j 0) := by
  have hu := (reachable_uniqueIds_allocated st h).1
  refine ⟨hu, ?_⟩
  intro i j hij hj e
  have hi : i < st.m_windows.length := Nat.lt_trans hij hj
  have hnd : (st.m_windows.map (GetId st.heap)).Nodup := hu
  have hi2 : i < (st.m_windows.map (GetId st.heap)).length := by simpa using hi
  have hj2 : j < (st.m_windows.map (GetId st.heap)).length := by simpa using hj
  have e2 : (st.m_windows.map (GetId st.heap))[i] = (st.m_windows.map (GetId st.heap))[j] := by
    simpa [List.getD_eq_getElem?_getD, List.getElem?_eq_getElem hi,
      List.getElem?_eq_getElem hj] using e
  have := (List.Nodup.getElem_inj_iff hnd).mp e2
  omega

theorem Reachable_unique_ids_witness :
    Reachable (AddWindow (AddWindow (AddWindow (UIState.empty []) (some "a") none
        ⟨0, 0, 9, 9⟩ 0).2 (some "b") (some 0) ⟨1, 1, 2, 2⟩ 0).2 (some "a") none
        ⟨0, 0, 1, 1⟩ 0).2 ∧
      ((AddWindow (AddWindow (AddWindow (UIState.empty []) (some "a") none
        ⟨0, 0, 9, 9⟩ 0).2 (some "b") (some 0) ⟨1, 1, 2, 2⟩ 0).2 (some "a") none
        ⟨0, 0, 1, 1⟩ 0).2.m_windows.map (GetId (AddWindow (AddWindow (AddWindow
        (UIState.empty []) (some "a") none ⟨0, 0, 9, 9⟩ 0).2 (some "b") (some 0)
        ⟨1, 1, 2, 2⟩ 0).2 (some "a") none ⟨0, 0, 1, 1⟩ 0).2.heap)).Nodup :=
  ⟨.addWindow _ _ _ _ (.addWindow _ _ _ _ (.addWindow _ _ _ _ (.init []))),
    (Reachable_unique_ids _
      (.addWindow _ _ _ _ (.addWindow _ _ _ _ (.addWindow _ _ _ _ (.init []))))).1⟩

/-- C3: when `AddWindow(id, parent, rect, flags)` succeeds, the new sequence is the old one
with exactly one entry appended: the returned window, a newly created object carrying that
id and parent; it is the last entry, every earlier entry keeps its position, and the
existing window objects are untouched. -/
theorem AddWindow_appends (st : UIState) (id : Option String) (parent : Option WindowPtr)
    (pos : Rect) (flags : Nat) (p : WindowPtr)
    (hok : (AddWindow st id parent pos flags).1 = .ok p) :
    (AddWindow st id parent pos flags).2.m_windows = st.m_windows ++ [p] ∧
      (AddWindow st id parent pos flags).2.m_windows.getLast? = some p ∧
      (∀ i, i < st.m_windows.length →
        (AddWindow st id parent pos flags).2.m_windows[i]? = st.m_windows[i]?) ∧
      p = st.heap.length ∧
      id = some (GetId (AddWindow st id parent pos flags).2.heap p) ∧
      GetParent (AddWindow st id parent pos flags).2.heap p = parent ∧
      (∀ q, q < st.heap.length →
        deref (AddWindow st id parent pos flags).2.heap q = deref st.heap q) := by
  rcases addWindow_cases st id parent pos flags with ⟨⟨e, he⟩, -⟩ | ⟨s, hid, -, h⟩
  · rw [he] at hok; cases hok
  · rw [h] at hok ⊢
    cases hok
    refine ⟨rfl, by simp, ?_, rfl, ?_, ?_, ?_⟩
    · intro i hi
      exact List.getElem?_append_left hi
    · simp [GetId, deref_create, hid]
    · simp [GetParent, deref_create]
    · intro q hq
      simp [deref, List.getD_eq_getElem?_getD, List.getElem?_append_left hq]

theorem AddWindow_appends_witness :
    (AddWindow ⟨familyHeap, [0, 1, 2, 3], none, []⟩ (some "h") (some 2) ⟨5, 5, 2, 2⟩ 0).1
        = .ok 4 ∧
      (AddWindow ⟨familyHeap, [0, 1, 2, 3], none, []⟩ (some "h") (some 2)
        ⟨5, 5, 2, 2⟩ 0).2.m_windows = [0, 1, 2, 3] ++ [4] :=
  ⟨rfl,
    (AddWindow_appends ⟨familyHeap, [0, 1, 2, 3], none, []⟩ (some "h") (some 2) ⟨5, 5, 2, 2⟩ 0 4
      rfl).1⟩

/-- C4, as the claim states it, fails: `FindWindow("")` on an empty registry does not throw,
it returns the empty result. -/
theorem FindWindow_empty_id_counterexample :
    FindWindow [] [] (some "") = .ok none ∧
      ¬ ∃ what, FindWindow [] [] (some "") = .error (.invalid_argument what) := by
  constructor
  · rfl
  · rintro ⟨what, h⟩
    cases h

/-- C4, amended: `FindWindow(id)` throws `std::invalid_argument` when `id` is null; for
every non-null id, the empty string included, it does not throw and returns the first
window of the sequence whose id equals `id`, or the empty result when no window of the
sequence has that id. -/
theorem FindWindow_null_or_first_match (heap : Heap) (ws : List WindowPtr) :
    FindWindow heap ws none = .error (.invalid_argument "id can't be null") ∧
      ∀ s : String,
        (FindWindow heap ws (some s) = .ok none ∧ ∀ w ∈ ws, GetId heap w ≠ s) ∨
        ∃ p pre post, FindWindow heap ws (some s) = .ok (some p) ∧ ws = pre ++ p :: post ∧
          GetId heap p = s ∧ ∀ q ∈ pre, GetId heap q ≠ s := by
  refine ⟨rfl, ?_⟩
  intro s
  cases hf : ws.find? (fun it => s == GetId heap it) with
  | none =>
    left
    exact ⟨by simp [FindWindow, hf], (find_id_none_iff heap ws s).mp hf⟩
  | some p =>
    right
    obtain ⟨pre, post, e, hpre, hp, -⟩ := find_split hf
    refine ⟨p, pre, post, by simp [FindWindow, hf], e, ?_, ?_⟩
    · simpa using (beq_iff_eq.mp hp).symm
    · intro q hq e2
      have := hpre q hq
      simp [e2] at this

/-! ## `RaiseSingleWindow` on a sequence with unique ids -/

theorem nodup_of_uniqueIds {heap : Heap} {ws : List WindowPtr} (h : UniqueIds heap ws) :
    ws.Nodup := List.Nodup.of_map _ h

theorem raiseSingleWindow_split (heap : Heap) (w : WindowPtr) (pre post : List WindowPtr)
    (hu : UniqueIds heap (pre ++ w :: post)) :
    RaiseSingleWindow heap w (pre ++ w :: post) = pre ++ post ++ [w] := by
  have hpre : ∀ x ∈ pre, ¬ ((GetId heap x == GetId heap w) = true) := by
    intro x hx hxw
    have hxw2 : GetId heap x = GetId heap w := beq_iff_eq.mp hxw
    unfold UniqueIds at hu
    rw [List.map_append, List.map_cons] at hu
    have hdis := (List.nodup_append.mp hu).2.2
    exact hdis (List.mem_map_of_mem _ hx) (by rw [hxw2]; exact List.mem_cons_self _ _)
  have hw : (GetId heap w == GetId heap w) = true := beq_self_eq_true _
  have hf : (pre ++ w :: post).find? (fun window => GetId heap window == GetId heap w)
      = some w := by
    rw [List.find?_eq_some]
    exact ⟨hw, pre, post, rfl, fun a ha => by simpa using hpre a ha⟩
  have he : (w :: post).eraseP (fun window => GetId heap window == GetId heap w) = post :=
    List.eraseP_cons_of_pos hw
  rw [raiseSingleWindow_of_find_some heap w _ w hf, List.eraseP_append_right _ hpre, he]

/-- C5: on a sequence with unique ids, `RaiseSingleWindow(w)` for a window `w` of the
sequence removes `w` from its position and appends it last, the other entries keeping their
order; when `w` is already last the sequence is unchanged; and when no entry has the id of
`w` the sequence is unchanged. -/
theorem RaiseSingleWindow_moves_to_end (heap : Heap) (ws : List WindowPtr) (w : WindowPtr)
    (hu : UniqueIds heap ws) :
    (w ∈ ws → ∃ pre post, ws = pre ++ w :: post ∧
        RaiseSingleWindow heap w ws = pre ++ post ++ [w]) ∧
      (∀ pre post, ws = pre ++ w :: post → RaiseSingleWindow heap w ws = pre ++ post ++ [w]) ∧
      (∀ pre, ws = pre ++ [w] → RaiseSingleWindow heap w ws = ws) ∧
      ((∀ x ∈ ws, GetId heap x ≠ GetId heap w) → RaiseSingleWindow heap w ws = ws) := by
  have hsplit : ∀ pre post, ws = pre ++ w :: post →
      RaiseSingleWindow heap w ws = pre ++ post ++ [w] := by
    intro pre post e
    subst e
    exact raiseSingleWindow_split heap w pre post hu
  refine ⟨?_, hsplit, ?_, ?_⟩
  · intro hw
    obtain ⟨pre, post, e⟩ := List.append_of_mem hw
    exact ⟨pre, post, e, hsplit pre post e⟩
  · intro pre e
    rw [hsplit pre [] e, e, List.append_nil]
  · intro hno
    apply raiseSingleWindow_of_find_none
    rw [List.find?_eq_none]
    intro x hx hxw
    exact hno x hx (beq_iff_eq.mp hxw)

theorem RaiseSingleWindow_moves_to_end_witness :
    UniqueIds familyHeap [0, 1, 2, 3] ∧
      RaiseSingleWindow familyHeap 1 [0, 1, 2, 3] = [0] ++ [2, 3] ++ [1] :=
  ⟨by decide,
    (RaiseSingleWindow_moves_to_end familyHeap [0, 1, 2, 3] 1 (by decide)).2.1 [0] [2, 3] rfl⟩

/-! ## Subtrees of the child view -/

theorem mem_getChildWindows (heap : Heap) (ws : List WindowPtr) (w c : WindowPtr) :
    c ∈ GetChildWindows heap ws w ↔ c ∈ ws ∧ GetParent heap c = some w := by
  simp [GetChildWindows, GetWindowList]

theorem inSubtree_trans {heap : Heap} {ws : List WindowPtr} {w c x : WindowPtr}
    (h1 : InSubtree heap ws w c) (h2 : InSubtree heap ws c x) : InSubtree heap ws w x := by
  induction h2 with
  | root => exact h1
  | child _ hx hp ih => exact .child ih hx hp

theorem inSubtree_mem {heap : Heap} {ws : List WindowPtr} {w x : WindowPtr} (hw : w ∈ ws)
    (h : InSubtree heap ws w x) : x ∈ ws := by
  cases h with
  | root => exact hw
  | child _ hx _ => exact hx

theorem inSubtree_of_mem_iff {heap : Heap} {ws ws2 : List WindowPtr} {w x : WindowPtr}
    (hmem : ∀ y, y ∈ ws → y ∈ ws2) (h : InSubtree heap ws w x) : InSubtree heap ws2 w x := by
  induction h with
  | root => exact .root
  | child _ hx hp ih => exact .child ih (hmem _ hx) hp

theorem inSubtree_height {heap : Heap} {ws : List WindowPtr} {w x : WindowPtr}
    {height : WindowPtr → Nat}
    (hacy : ∀ c ∈ ws, ∀ p, GetParent heap c = some p → height c < height p)
    (h : InSubtree heap ws w x) : x = w ∨ height x < height w := by
  induction h with
  | root => left; rfl
  | child _ hx hpar ih =>
    right
    have := hacy _ hx _ hpar
    rcases ih with rfl | ih
    · exact this
    · omega

theorem inSubtree_linear {heap : Heap} {ws : List WindowPtr} {a b x : WindowPtr}
    (ha : InSubtree heap ws a x) (hb : InSubtree heap ws b x) :
    InSubtree heap ws a b ∨ InSubtree heap ws b a := by
  induction ha with
  | root => right; exact hb
  | child hp hx hpar ih =>
    cases hb with
    | root => left; exact .child hp hx hpar
    | child hq _ hparq =>
      rw [hpar] at hparq
      cases hparq
      exact ih hq

theorem not_inSubtree_of_same_parent {heap : Heap} {ws : List WindowPtr} {p x : WindowPtr}
    {height : WindowPtr → Nat}
    (hacy : ∀ c ∈ ws, ∀ q, GetParent heap c = some q → height c < height q)
    (hp : p ∈ ws) (hpar : GetParent heap x = GetParent heap p) (hne : x ≠ p) :
    ¬ InSubtree heap ws p x := by
  intro h
  cases h with
  | root => exact hne rfl
  | child hq _ hparx =>
    rw [hparx] at hpar
    have h1 := hacy p hp _ hpar.symm
    rcases inSubtree_height hacy hq with e | e
    · rw [e] at h1; exact Nat.lt_irrefl _ h1
    · omega

theorem subtree_disjoint_of_same_parent {heap : Heap} {ws : List WindowPtr}
    {a b x : WindowPtr} {height : WindowPtr → Nat}
    (hacy : ∀ c ∈ ws, ∀ q, GetParent heap c = some q → height c < height q)
    (ha : a ∈ ws) (hb : b ∈ ws) (hpar : GetParent heap a = GetParent heap b) (hne : a ≠ b)
    (h1 : InSubtree heap ws a x) (h2 : InSubtree heap ws b x) : False := by
  rcases inSubtree_linear h1 h2 with h | h
  · exact not_inSubtree_of_same_parent hacy ha hpar.symm (Ne.symm hne) h
  · exact not_inSubtree_of_same_parent hacy hb hpar hne h

theorem not_inSubtree_parent {heap : Heap} {ws : List WindowPtr} {c w : WindowPtr}
    {height : WindowPtr → Nat}
    (hacy : ∀ c ∈ ws, ∀ q, GetParent heap c = some q → height c < height q)
    (hc : c ∈ ws) (hpar : GetParent heap c = some w) : ¬ InSubtree heap ws c w := by
  intro h
  have h1 := hacy c hc w hpar
  rcases inSubtree_height hacy h with e | e
  · rw [e] at h1; exact Nat.lt_irrefl _ h1
  · omega

/-! ## The pre-order listing -/

theorem mem_preorder_inSubtree (heap : Heap) (ws : List WindowPtr) :
    ∀ (n : Nat) (w x : WindowPtr), x ∈ preorder heap ws n w → InSubtree heap ws w x := by
  intro n
  induction n with
  | zero => intro w x h; simp [preorder] at h
  | succ n ih =>
    intro w x h
    simp only [preorder, List.mem_cons, List.mem_flatMap] at h
    rcases h with rfl | ⟨c, hc, hx⟩
    · exact .root
    · rw [mem_getChildWindows] at hc
      exact inSubtree_trans (.child .root hc.1 hc.2) (ih c x hx)

theorem preorder_closed (heap : Heap) (ws : List WindowPtr) (height : WindowPtr → Nat)
    (hacy : ∀ c ∈ ws, ∀ q, GetParent heap c = some q → height c < height q) :
    ∀ (n : Nat) (w p x : WindowPtr), p ∈ preorder heap ws n w → height w < n → x ∈ ws →
      GetParent heap x = some p → x ∈ preorder heap ws n w := by
  intro n
  induction n with
  | zero => intro w p x h; simp [preorder] at h
  | succ n ih =>
    intro w p x h hn hx hpar
    simp only [preorder, List.mem_cons, List.mem_flatMap] at h ⊢
    right
    rcases h with rfl | ⟨c, hc, hp⟩
    · have hlt := hacy x hx p hpar
      refine ⟨x, (mem_getChildWindows heap ws p x).mpr ⟨hx, hpar⟩, ?_⟩
      cases n with
      | zero => omega
      | succ m => simp [preorder]
    · have hc2 := (mem_getChildWindows heap ws w c).mp hc
      have hlt := hacy c hc2.1 w hc2.2
      exact ⟨c, hc, ih c p x hp (by omega) hx hpar⟩

theorem inSubtree_mem_preorder (heap : Heap) (ws : List WindowPtr) (height : WindowPtr → Nat)
    (hacy : ∀ c ∈ ws, ∀ q, GetParent heap c = some q → height c < height q)
    (n : Nat) (w x : WindowPtr) (h : InSubtree heap ws w x) (hn : height w < n) :
    x ∈ preorder heap ws n w := by
  induction h with
  | root =>
    cases n with
    | zero => omega
    | succ m => simp [preorder]
  | child _ hx hpar ih => exact preorder_closed heap ws height hacy n w _ _ ih hn hx hpar

theorem preorder_fuel (heap : Heap) (ws : List WindowPtr) (height : WindowPtr → Nat)
    (hacy : ∀ c ∈ ws, ∀ q, GetParent heap c = some q → height c < height q) :
    ∀ (n m : Nat) (w : WindowPtr), height w < n → height w < m →
      preorder heap ws n w = preorder heap ws m w := by
  intro n
  induction n with
  | zero => intro m w h; omega
  | succ n ih =>
    intro m w hn hm
    cases m with
    | zero => omega
    | succ m =>
      simp only [preorder]
      congr 1
      apply List.flatMap_congr
      intro c hc
      have hc2 := (mem_getChildWindows heap ws w c).mp hc
      have hlt := hacy c hc2.1 w hc2.2
      exact ih m c (by omega) (by omega)

theorem preorder_congr (heap : Heap) (ws acc : List WindowPtr) :
    ∀ (n : Nat) (c : WindowPtr),
      (∀ x, InSubtree heap ws c x → GetChildWindows heap acc x = GetChildWindows heap ws x) →
      preorder heap acc n c = preorder heap ws n c := by
  intro n
  induction n with
  | zero => intro c _; rfl
  | succ n ih =>
    intro c h
    simp only [preorder]
    rw [h c .root]
    congr 1
    apply List.flatMap_congr
    intro d hd
    have hd2 := (mem_getChildWindows heap ws c d).mp hd
    exact ih d (fun x hx => h x (inSubtree_trans (.child .root hd2.1 hd2.2) hx))

/-! ## Moving a block to the end -/

theorem raiseSingleWindow_eq_moveBlock (heap : Heap) (ws : List WindowPtr) (w : WindowPtr)
    (hu : UniqueIds heap ws) (hw : w ∈ ws) :
    RaiseSingleWindow heap w ws = moveBlockToEnd ws [w] := by
  obtain ⟨pre, post, e⟩ := List.append_of_mem hw
  subst e
  rw [raiseSingleWindow_split heap w pre post hu]
  have hnd := nodup_of_uniqueIds hu
  have hpre : w ∉ pre := fun h =>
    (List.nodup_append.mp hnd).2.2 h (List.mem_cons_self _ _)
  have hpost : w ∉ post :=
    (List.nodup_cons.mp (List.nodup_append.mp hnd).2.1).1
  unfold moveBlockToEnd
  congr 1
  rw [List.filter_append, List.filter_cons_of_neg (by simp)]
  congr 1
  · symm; rw [List.filter_eq_self]
    intro a ha
    have : a ≠ w := fun e => hpre (e ▸ ha)
    simpa using this
  · symm; rw [List.filter_eq_self]
    intro a ha
    have : a ≠ w := fun e => hpost (e ▸ ha)
    simpa using this

theorem children_moveBlock (heap : Heap) (ws block : List WindowPtr) (x : WindowPtr)
    (hblock : ∀ d ∈ block, GetParent heap d ≠ some x) :
    GetChildWindows heap (moveBlockToEnd ws block) x = GetChildWindows heap ws x := by
  unfold moveBlockToEnd GetChildWindows GetWindowList
  rw [List.filter_append, List.filter_filter]
  have h1 : block.filter (fun window => GetParent heap window == some x) = [] := by
    rw [List.filter_eq_nil_iff]
    intro a ha
    simpa using hblock a ha
  rw [h1, List.append_nil]
  apply List.filter_congr
  intro a _
  by_cases hp : GetParent heap a = some x
  · have : a ∉ block := fun hb => hblock a hb hp
    simp [hp, this]
  · simp [hp]

theorem moveBlock_moveBlock (ws block more : List WindowPtr)
    (hdisj : ∀ d ∈ block, d ∉ more) :
    moveBlockToEnd (moveBlockToEnd ws block) more = moveBlockToEnd ws (block ++ more) := by
  unfold moveBlockToEnd
  rw [List.filter_append, List.filter_filter, List.append_assoc]
  congr 1
  · apply List.filter_congr
    intro a _
    simp [List.mem_append, not_or, Bool.and_comm]
  · congr 1
    rw [List.filter_eq_self]
    intro a ha
    simpa using hdisj a ha

/-! ## `RaiseChildren` moves the pre-order listing of the subtree to the end -/

theorem raiseEach_children (heap : Heap) (n : Nat) (height : WindowPtr → Nat)
    (ws : List WindowPtr) (w : WindowPtr)
    (IH : ∀ (acc : List WindowPtr) (c : WindowPtr), UniqueIds heap acc →
      (∀ d ∈ acc, ∀ q, GetParent heap d = some q → height d < height q) → c ∈ acc →
      height c < n →
      RaiseChildren heap n c acc = some (moveBlockToEnd acc (preorder heap acc n c)))
    (hu : UniqueIds heap ws)
    (hacy : ∀ d ∈ ws, ∀ q, GetParent heap d = some q → height d < height q)
    (hw : w ∈ ws) (hn : height w ≤ n) :
    ∀ (todo done acc : List WindowPtr), GetChildWindows heap ws w = done ++ todo →
      acc.Perm ws →
      acc = moveBlockToEnd ws (w :: done.flatMap (preorder heap ws n)) →
      raiseEach (RaiseChildren heap n) todo acc =
        some (moveBlockToEnd ws (w :: (done ++ todo).flatMap (preorder heap ws n))) := by
  intro todo
  induction todo with
  | nil => intro done acc _ _ hacc; simp [raiseEach, hacc]
  | cons c todo ih =>
    intro done acc hch hperm hacc
    have hcmem : c ∈ GetChildWindows heap ws w := by rw [hch]; simp
    have hc := (mem_getChildWindows heap ws w c).mp hcmem
    have hclt := hacy c hc.1 w hc.2
    have hnd : (GetChildWindows heap ws w).Nodup := (nodup_of_uniqueIds hu).filter _
    rw [hch] at hnd
    have hdone : ∀ d ∈ done, d ∈ ws ∧ GetParent heap d = some w ∧ d ≠ c := by
      intro d hd
      have hdm : d ∈ GetChildWindows heap ws w := by rw [hch]; simp [hd]
      have hd2 := (mem_getChildWindows heap ws w d).mp hdm
      refine ⟨hd2.1, hd2.2, ?_⟩
      intro e
      subst e
      exact (List.nodup_append.mp hnd).2.2 hd (List.mem_cons_self _ _)
    have hblock : ∀ d ∈ w :: done.flatMap (preorder heap ws n), ¬ InSubtree heap ws c d := by
      intro d hd hsub
      rcases List.mem_cons.mp hd with rfl | hd
      · exact not_inSubtree_parent hacy hc.1 hc.2 hsub
      · obtain ⟨b, hb, hdb⟩ := List.mem_flatMap.mp hd
        obtain ⟨hb1, hb2, hb3⟩ := hdone b hb
        exact subtree_disjoint_of_same_parent hacy hb1 hc.1 (hb2.trans hc.2.symm) hb3
          (mem_preorder_inSubtree heap ws n b d hdb) hsub
    have hblockmem : ∀ d ∈ w :: done.flatMap (preorder heap ws n), d ∈ ws := by
      intro d hd
      rcases List.mem_cons.mp hd with rfl | hd
      · exact hw
      · obtain ⟨b, hb, hdb⟩ := List.mem_flatMap.mp hd
        exact inSubtree_mem (hdone b hb).1 (mem_preorder_inSubtree heap ws n b d hdb)
    have hpre : preorder heap acc n c = preorder heap ws n c := by
      apply preorder_congr
      intro x hx
      rw [hacc]
      apply children_moveBlock
      intro d hd hpar
      exact hblock d hd (.child hx (hblockmem d hd) hpar)
    have hstep : RaiseChildren heap n c acc =
        some (moveBlockToEnd acc (preorder heap ws n c)) := by
      rw [← hpre]
      exact IH acc c (uniqueIds_of_perm hperm hu)
        (fun d hd => hacy d (hperm.mem_iff.mp hd)) (hperm.mem_iff.mpr hc.1) (by omega)
    have hacc2 : moveBlockToEnd acc (preorder heap ws n c) =
        moveBlockToEnd ws (w :: (done ++ [c]).flatMap (preorder heap ws n)) := by
      rw [hacc, moveBlock_moveBlock _ _ _
        (fun d hd hdc => hblock d hd (mem_preorder_inSubtree heap ws n c d hdc))]
      simp [List.flatMap_append]
    have hrest := ih (done ++ [c]) (moveBlockToEnd acc (preorder heap ws n c))
      (by rw [hch]; simp)
      ((raiseChildren_perm heap n c acc _ hstep).trans hperm) hacc2
    simp only [raiseEach, hstep, Option.bind]
    rw [hrest]
    simp

theorem raiseChildren_eq_moveBlock (heap : Heap) (height : WindowPtr → Nat) :
    ∀ (n : Nat) (ws : List WindowPtr) (w : WindowPtr), UniqueIds heap ws →
      (∀ d ∈ ws, ∀ q, GetParent heap d = some q → height d < height q) → w ∈ ws →
      height w < n →
      RaiseChildren heap n w ws = some (moveBlockToEnd ws (preorder heap ws n w)) := by
  intro n
  induction n with
  | zero => intro ws w _ _ _ h; omega
  | succ n ih =>
    intro ws w hu hacy hw hn
    have hself : GetParent heap w ≠ some w := fun h => Nat.lt_irrefl _ (hacy w hw w h)
    have h1 := raiseSingleWindow_eq_moveBlock heap ws w hu hw
    have h2 : GetChildWindows heap (moveBlockToEnd ws [w]) w = GetChildWindows heap ws w :=
      children_moveBlock heap ws [w] w (by simpa using hself)
    have hperm : (moveBlockToEnd ws [w]).Perm ws := by
      rw [← h1]; exact raiseSingleWindow_perm heap w ws
    have h3 := raiseEach_children heap n height ws w ih hu hacy hw (by omega)
      (GetChildWindows heap ws w) [] (moveBlockToEnd ws [w]) (by simp) hperm (by simp)
    simp only [RaiseChildren]
    rw [h1, h2, h3]
    simp [preorder]

theorem before_append {l1 l2 : List WindowPtr} {x y : WindowPtr} (hx : x ∈ l1) (hy : y ∈ l2)
    (hy1 : y ∉ l1) : Before (l1 ++ l2) x y := by
  refine ⟨List.mem_append_left _ hx, List.mem_append_right _ hy, ?_⟩
  rw [List.indexOf_append_of_mem hx, List.indexOf_append_of_not_mem hy1]
  have := List.indexOf_lt_length.mpr hx
  omega

theorem before_of_sublist : ∀ (l : List WindowPtr) (x y : WindowPtr), l.Nodup →
    List.Sublist [x, y] l → Before l x y := by
  intro l
  induction l with
  | nil => intro x y _ h; cases h
  | cons a t ih =>
    intro x y hnd h
    have hat : a ∉ t := (List.nodup_cons.mp hnd).1
    have ht : t.Nodup := (List.nodup_cons.mp hnd).2
    cases h with
    | cons _ h =>
      obtain ⟨hx, hy, hlt⟩ := ih x y ht h
      have hax : a ≠ x := fun e => hat (e ▸ hx)
      have hay : a ≠ y := fun e => hat (e ▸ hy)
      refine ⟨List.mem_cons_of_mem _ hx, List.mem_cons_of_mem _ hy, ?_⟩
      rw [List.indexOf_cons_ne _ hax, List.indexOf_cons_ne _ hay]
      omega
    | cons₂ _ h =>
      have hy : y ∈ t := List.singleton_sublist.mp h
      have hay : a ≠ y := fun e => hat (e ▸ hy)
      refine ⟨List.mem_cons_self _ _, List.mem_cons_of_mem _ hy, ?_⟩
      rw [List.indexOf_cons_self, List.indexOf_cons_ne _ hay]
      omega

theorem sublist_of_before : ∀ (l : List WindowPtr) (x y : WindowPtr), Before l x y →
    List.Sublist [x, y] l := by
  intro l
  induction l with
  | nil => intro x y h; exact absurd h.1 (List.not_mem_nil _)
  | cons a t ih =>
    intro x y ⟨hx, hy, hlt⟩
    by_cases hax : a = x
    · subst hax
      rw [List.indexOf_cons_self] at hlt
      have hay : a ≠ y := by
        intro e; subst e; rw [List.indexOf_cons_self] at hlt; omega
      have hyt : y ∈ t := by
        rcases List.mem_cons.mp hy with e | h
        · exact absurd e.symm hay
        · exact h
      exact List.Sublist.cons₂ _ (List.singleton_sublist.mpr hyt)
    · rw [List.indexOf_cons_ne _ hax] at hlt
      have hay : a ≠ y := by
        intro e; subst e; rw [List.indexOf_cons_self] at hlt; omega
      rw [List.indexOf_cons_ne _ hay] at hlt
      have hxt : x ∈ t := by
        rcases List.mem_cons.mp hx with e | h
        · exact absurd e.symm hax
        · exact h
      have hyt : y ∈ t := by
        rcases List.mem_cons.mp hy with e | h
        · exact absurd e.symm hay
        · exact h
      exact List.Sublist.cons _ (ih x y ⟨hxt, hyt, by omega⟩)

/-! ## Shape of the pre-order listing -/

theorem sublist_flatMap_of_mem {f : WindowPtr → List WindowPtr} {l : List WindowPtr}
    {a : WindowPtr} (h : a ∈ l) : List.Sublist (f a) (l.flatMap f) := by
  rw [List.flatMap_def]
  exact List.sublist_flatten_of_mem (List.mem_map_of_mem f h)

theorem sublist_flatMap {f : WindowPtr → List WindowPtr} {l1 l2 : List WindowPtr}
    (h : List.Sublist l1 l2) : List.Sublist (l1.flatMap f) (l2.flatMap f) := by
  induction h with
  | slnil => exact List.Sublist.refl _
  | cons a _ ih =>
    rw [List.flatMap_cons]
    exact ih.trans (List.sublist_append_right _ _)
  | cons₂ a _ ih =>
    rw [List.flatMap_cons, List.flatMap_cons]
    exact List.Sublist.append (List.Sublist.refl _) ih

theorem preorder_pos (heap : Heap) (ws : List WindowPtr) (n : Nat) (w : WindowPtr)
    (hn : 0 < n) :
    preorder heap ws n w =
      w :: (GetChildWindows heap ws w).flatMap (preorder heap ws (n - 1)) := by
  cases n with
  | zero => omega
  | succ m => rfl

theorem preorder_sublist (heap : Heap) (ws : List WindowPtr) (height : WindowPtr → Nat)
    (hacy : ∀ c ∈ ws, ∀ q, GetParent heap c = some q → height c < height q)
    (n : Nat) (w p : WindowPtr) (h : InSubtree heap ws w p) (hn : height w < n) :
    List.Sublist (preorder heap ws n p) (preorder heap ws n w) := by
  induction h with
  | root => exact List.Sublist.refl _
  | @child p x hp hx hpar ih =>
    refine List.Sublist.trans ?_ ih
    have hlt := hacy x hx p hpar
    have hpw : p = w ∨ height p < height w := inSubtree_height hacy hp
    have hpn : height p < n := by
      rcases hpw with e | e
      · rw [e]; exact hn
      · omega
    rw [preorder_pos heap ws n p (by omega)]
    rw [preorder_fuel heap ws height hacy n (n - 1) x (by omega) (by omega)]
    exact List.Sublist.cons _
      (sublist_flatMap_of_mem ((mem_getChildWindows heap ws p x).mpr ⟨hx, hpar⟩))

theorem inSubtree_iff (heap : Heap) (ws : List WindowPtr) (w x : WindowPtr) :
    InSubtree heap ws w x ↔ x = w ∨ Descendant heap ws w x := by
  constructor
  · intro h
    cases h with
    | root => left; rfl
    | child hp hx hpar => right; exact ⟨_, hp, hx, hpar⟩
  · rintro (rfl | ⟨p, hp, hx, hpar⟩)
    · exact .root
    · exact .child hp hx hpar

theorem descendant_ne (heap : Heap) (ws : List WindowPtr) (height : WindowPtr → Nat)
    (hacy : ∀ c ∈ ws, ∀ q, GetParent heap c = some q → height c < height q)
    (a x : WindowPtr) (h : Descendant heap ws a x) : x ≠ a ∧ height x < height a := by
  obtain ⟨p, hp, hx, hpar⟩ := h
  have hlt := hacy x hx p hpar
  rcases inSubtree_height hacy hp with e | e
  · subst e
    exact ⟨fun e2 => by rw [e2] at hlt; exact Nat.lt_irrefl _ hlt, hlt⟩
  · exact ⟨fun e2 => by rw [e2] at hlt; omega, by omega⟩

/-- What `RaiseChildren` yields on a well-formed registry, for every budget above the
rank of `w`: the pre-order listing of the subtree of `w`, moved to the end. -/
theorem raiseChildren_shape (heap : Heap) (height : WindowPtr → Nat) (ws : List WindowPtr)
    (w : WindowPtr) (hu : UniqueIds heap ws)
    (hacy : ∀ c ∈ ws, ∀ q, GetParent heap c = some q → height c < height q)
    (hw : w ∈ ws) (fuel : Nat) (hn : height w < fuel) :
    ∃ rest, preorder heap ws fuel w = w :: rest ∧
      RaiseChildren heap fuel w ws =
        some (ws.filter (fun y => decide (y ∉ w :: rest)) ++ w :: rest) ∧
      (ws.filter (fun y => decide (y ∉ w :: rest)) ++ w :: rest).Perm ws ∧
      ∀ x, x ∈ w :: rest ↔ InSubtree heap ws w x := by
  have h := raiseChildren_eq_moveBlock heap height fuel ws w hu hacy hw hn
  have hpre := preorder_pos heap ws fuel w (by omega)
  refine ⟨_, hpre, ?_, ?_, ?_⟩
  · rw [← hpre]; exact h
  · rw [← hpre]; exact raiseChildren_perm heap fuel w ws _ h
  · intro x
    rw [← hpre]
    exact ⟨mem_preorder_inSubtree heap ws fuel w x,
      fun hx => inSubtree_mem_preorder heap ws height hacy fuel w x hx hn⟩

theorem le_foldr_max (ws : List WindowPtr) (c : WindowPtr) (h : c ∈ ws) :
    c ≤ ws.foldr max 0 := by
  induction ws with
  | nil => exact absurd h (List.not_mem_nil _)
  | cons a t ih =>
    simp only [List.foldr_cons]
    rcases List.mem_cons.mp h with e | h
    · subst e; exact Nat.le_max_left _ _
    · exact Nat.le_trans (ih h) (Nat.le_max_right _ _)

/-- A registry in which every parent was created before its child (it has the smaller
address) is acyclic. -/
theorem acyclic_of_parent_lt (heap : Heap) (ws : List WindowPtr)
    (h : ws.all (fun c => (GetParent heap c).all (fun p => decide (p < c))) = true) :
    Acyclic heap ws := by
  refine ⟨fun x => ws.foldr max 0 - x, ?_⟩
  intro c hc p hp
  have h1 := List.all_eq_true.mp h c hc
  rw [hp] at h1
  have h2 : p < c := by simpa using h1
  have h3 := le_foldr_max ws c hc
  show ws.foldr max 0 - c < ws.foldr max 0 - p
  exact Nat.sub_lt_sub_left (Nat.lt_of_lt_of_le h2 h3) h2

theorem before_in_raised (ws block : List WindowPtr) (x y : WindowPtr)
    (hperm : (ws.filter (fun z => decide (z ∉ block)) ++ block).Perm ws) (hws : ws.Nodup)
    (h : List.Sublist [x, y] block) :
    Before (ws.filter (fun z => decide (z ∉ block)) ++ block) x y :=
  before_of_sublist _ x y (hperm.nodup_iff.mpr hws)
    (h.trans (List.sublist_append_right _ _))

/-- C6: on a registry with unique ids and acyclic parents, `RaiseChildren(w)` for a window
`w` of the sequence returns (for every sufficient recursion budget) a sequence
`pre ++ w :: rest` in which the suffix `w :: rest` holds exactly `w` and its descendants,
with `w` first (lowest), and `pre` holds exactly the windows outside the subtree. -/
theorem RaiseChildren_subtree_contiguous_suffix (heap : Heap) (ws : List WindowPtr)
    (w : WindowPtr) (hu : UniqueIds heap ws) (hacy : Acyclic heap ws) (hw : w ∈ ws) :
    ∃ n, ∀ fuel, n ≤ fuel → ∃ pre rest,
      RaiseChildren heap fuel w ws = some (pre ++ w :: rest) ∧
      (∀ x, x ∈ w :: rest ↔ (x = w ∨ Descendant heap ws w x)) ∧
      (∀ x, x ∈ pre ↔ (x ∈ ws ∧ x ≠ w ∧ ¬ Descendant heap ws w x)) ∧
      (pre ++ w :: rest).Perm ws := by
  obtain ⟨height, hacy⟩ := hacy
  refine ⟨height w + 1, fun fuel hfuel => ?_⟩
  obtain ⟨rest, -, hres, hperm, hmem⟩ :=
    raiseChildren_shape heap height ws w hu hacy hw fuel (by omega)
  refine ⟨_, rest, hres, ?_, ?_, hperm⟩
  · intro x
    rw [hmem x, inSubtree_iff]
  · intro x
    rw [List.mem_filter, decide_eq_true_eq, hmem x, inSubtree_iff, not_or]

theorem familyHeap_acyclic : Acyclic familyHeap [0, 1, 2, 3] :=
  acyclic_of_parent_lt _ _ (by decide)

theorem RaiseChildren_subtree_contiguous_suffix_witness :
    UniqueIds familyHeap [0, 1, 2, 3] ∧ Acyclic familyHeap [0, 1, 2, 3] ∧
      RaiseChildren familyHeap 2 1 [0, 1, 2, 3] = some ([0, 2] ++ 1 :: [3]) ∧
      ∃ n, ∀ fuel, n ≤ fuel → ∃ pre rest,
        RaiseChildren familyHeap fuel 1 [0, 1, 2, 3] = some (pre ++ 1 :: rest) ∧
        (∀ x, x ∈ 1 :: rest ↔ (x = 1 ∨ Descendant familyHeap [0, 1, 2, 3] 1 x)) ∧
        (∀ x, x ∈ pre ↔ (x ∈ [0, 1, 2, 3] ∧ x ≠ 1 ∧ ¬ Descendant familyHeap [0, 1, 2, 3] 1 x)) ∧
        (pre ++ 1 :: rest).Perm [0, 1, 2, 3] :=
  ⟨by decide, familyHeap_acyclic, by decide,
    RaiseChildren_subtree_contiguous_suffix familyHeap [0, 1, 2, 3] 1 (by decide)
      familyHeap_acyclic (by decide)⟩

/-- C7, as the claim states it, fails. In the registry `[w, c1, c2, g]` (`c1`, `c2` children
of `w`, `g` a child of `c1`; unique ids, acyclic) `RaiseChildren(w)` yields
`[w, c1, g, c2]`: the descendants `c2` and `g` have changed their relative order, and the
deeper descendant `g` lies below the shallower descendant `c2`. -/
theorem RaiseChildren_descendant_order_counterexample :
    UniqueIds familyHeap [0, 1, 2, 3] ∧ Acyclic familyHeap [0, 1, 2, 3] ∧
      RaiseChildren familyHeap 3 0 [0, 1, 2, 3] = some [0, 1, 3, 2] ∧
      Descendant familyHeap [0, 1, 2, 3] 0 2 ∧ Descendant familyHeap [0, 1, 2, 3] 0 3 ∧
      Before [0, 1, 2, 3] 2 3 ∧ ¬ Before [0, 1, 3, 2] 2 3 ∧
      GetParent familyHeap 2 = some 0 ∧ GetParent familyHeap 1 = some 0 ∧
      GetParent familyHeap 3 = some 1 ∧ Before [0, 1, 3, 2] 3 2 := by
  refine ⟨by decide, familyHeap_acyclic, by decide, ?_, ?_, by decide, by decide, by decide,
    by decide, by decide, by decide⟩
  · exact ⟨0, .root, by decide, by decide⟩
  · exact ⟨1, .child .root (by decide) (by decide), by decide, by decide⟩

/-- C7, amended: on a registry with unique ids and acyclic parents, after `RaiseChildren(w)`
any two descendants of `w` that have the same parent appear in the same relative order
they had before the raise, and every window of the subtree (`w` or a descendant of `w`)
lies below each of its own descendants. -/
theorem RaiseChildren_sibling_order_kept (heap : Heap) (ws : List WindowPtr) (w : WindowPtr)
    (hu : UniqueIds heap ws) (hacy : Acyclic heap ws) (hw : w ∈ ws) :
    ∃ n, ∀ fuel, n ≤ fuel → ∃ res, RaiseChildren heap fuel w ws = some res ∧
      (∀ x y, Descendant heap ws w x → Descendant heap ws w y →
        GetParent heap x = GetParent heap y → Before ws x y → Before res x y) ∧
      (∀ a x, (a = w ∨ Descendant heap ws w a) → Descendant heap ws a x →
        Before res a x) := by
  obtain ⟨height, hacy⟩ := hacy
  refine ⟨height w + 1, fun fuel hfuel => ?_⟩
  obtain ⟨rest, hpre, hres, hperm, hmem⟩ :=
    raiseChildren_shape heap height ws w hu hacy hw fuel (by omega)
  have hnd := nodup_of_uniqueIds hu
  refine ⟨_, hres, ?_, ?_⟩
  · rintro x y ⟨p, hp, hx, hparx⟩ ⟨p2, -, hy, hpary⟩ hsame hb
    have hpw : p = w ∨ height p < height w := inSubtree_height hacy hp
    have hpn : height p < fuel := by
      rcases hpw with e | e
      · rw [e]; omega
      · omega
    have hxlt := hacy x hx p hparx
    have hpary2 : GetParent heap y = some p := by rw [← hsame, hparx]
    have hylt := hacy y hy p hpary2
    have s1 : List.Sublist [x, y] (GetChildWindows heap ws p) := by
      have := List.Sublist.filter (fun window => GetParent heap window == some p)
        (sublist_of_before ws x y hb)
      simpa [GetChildWindows, GetWindowList, hparx, hpary2] using this
    have s2 := sublist_flatMap (f := preorder heap ws (fuel - 1)) s1
    have s3 : List.Sublist [x, y] ([x, y].flatMap (preorder heap ws (fuel - 1))) := by
      rw [List.flatMap_cons, List.flatMap_cons, List.flatMap_nil, List.append_nil,
        preorder_pos heap ws (fuel - 1) x (by omega),
        preorder_pos heap ws (fuel - 1) y (by omega)]
      exact List.Sublist.cons₂ _ (List.Sublist.trans
        (List.Sublist.cons₂ _ (List.nil_sublist _)) (List.sublist_append_right _ _))
    have s4 : List.Sublist [x, y] (preorder heap ws fuel p) := by
      rw [preorder_pos heap ws fuel p (by omega)]
      exact List.Sublist.cons _ (s3.trans s2)
    have s5 := s4.trans (preorder_sublist heap ws height hacy fuel w p hp (by omega))
    rw [hpre] at s5
    exact before_in_raised ws (w :: rest) x y hperm hnd s5
  · intro a x ha hax
    have hasub : InSubtree heap ws w a := (inSubtree_iff heap ws w a).mpr ha
    have haw : a = w ∨ height a < height w := inSubtree_height hacy hasub
    have han : height a < fuel := by
      rcases haw with e | e
      · rw [e]; omega
      · omega
    have hne := (descendant_ne heap ws height hacy a x hax).1
    have hxa : x ∈ preorder heap ws fuel a :=
      inSubtree_mem_preorder heap ws height hacy fuel a x
        ((inSubtree_iff heap ws a x).mpr (Or.inr hax)) han
    have s1 : List.Sublist [a, x] (preorder heap ws fuel a) := by
      rw [preorder_pos heap ws fuel a (by omega)] at hxa ⊢
      rcases List.mem_cons.mp hxa with e | h
      · exact absurd e hne
      · exact List.Sublist.cons₂ _ (List.singleton_sublist.mpr h)
    have s2 := s1.trans (preorder_sublist heap ws height hacy fuel w a hasub (by omega))
    rw [hpre] at s2
    exact before_in_raised ws (w :: rest) a x hperm hnd s2

theorem RaiseChildren_sibling_order_kept_witness :
    UniqueIds familyHeap [0, 1, 2, 3] ∧ Acyclic familyHeap [0, 1, 2, 3] ∧
      ∃ n, ∀ fuel, n ≤ fuel → ∃ res, RaiseChildren familyHeap fuel 0 [0, 1, 2, 3] = some res ∧
        (∀ x y, Descendant familyHeap [0, 1, 2, 3] 0 x → Descendant familyHeap [0, 1, 2, 3] 0 y →
          GetParent familyHeap x = GetParent familyHeap y → Before [0, 1, 2, 3] x y →
          Before res x y) ∧
        (∀ a x, (a = 0 ∨ Descendant familyHeap [0, 1, 2, 3] 0 a) →
          Descendant familyHeap [0, 1, 2, 3] a x → Before res a x) :=
  ⟨by decide, familyHeap_acyclic,
    RaiseChildren_sibling_order_kept familyHeap [0, 1, 2, 3] 0 (by decide) familyHeap_acyclic
      (by decide)⟩

/-! ## `MoveToFront` -/

theorem moveToFront_null (heap : Heap) (fuel : Nat) (ws : List WindowPtr) :
    MoveToFront heap fuel none ws = some ws := rfl

theorem moveToFront_root (heap : Heap) (fuel : Nat) (w : WindowPtr) (ws : List WindowPtr)
    (hpar : GetParent heap w = none) :
    MoveToFront heap fuel (some w) ws = RaiseChildren heap fuel w ws := by
  simp only [MoveToFront, hpar]

theorem moveToFront_child (heap : Heap) (fuel : Nat) (w p : WindowPtr) (ws : List WindowPtr)
    (hpar : GetParent heap w = some p) :
    MoveToFront heap fuel (some w) ws =
      (RaiseChildren heap fuel p ws).bind (RaiseChildren heap fuel w) := by
  simp only [MoveToFront, hpar]

/-- What `MoveToFront(w)` yields on a well-formed registry when the parent `p` of `w` is in
the registry: the windows outside the subtree of `p`, then `p` with the part of its
subtree outside the subtree of `w`, then the subtree of `w`. -/
theorem moveToFront_shape (heap : Heap) (height : WindowPtr → Nat) (ws : List WindowPtr)
    (w p : WindowPtr) (hu : UniqueIds heap ws)
    (hacy : ∀ c ∈ ws, ∀ q, GetParent heap c = some q → height c < height q)
    (hw : w ∈ ws) (hpar : GetParent heap w = some p) (hp : p ∈ ws) (fuel : Nat)
    (hn : height p < fuel) :
    ∃ pre mid rest,
      MoveToFront heap fuel (some w) ws = some (pre ++ ((p :: mid) ++ (w :: rest))) ∧
      (∀ x, x ∈ (p :: mid) ++ (w :: rest) ↔ InSubtree heap ws p x) ∧
      (∀ x, x ∈ w :: rest ↔ InSubtree heap ws w x) ∧
      (∀ x, x ∈ pre ↔ (x ∈ ws ∧ ¬ InSubtree heap ws p x)) ∧
      (∀ x, x ∈ p :: mid → ¬ InSubtree heap ws w x) ∧
      (pre ++ ((p :: mid) ++ (w :: rest))).Perm ws := by
  have hwlt := hacy w hw p hpar
  obtain ⟨rp, -, hres1, hperm1, hmem1⟩ :=
    raiseChildren_shape heap height ws p hu hacy hp fuel hn
  obtain ⟨rw, -, hres2, hperm2, hmem2⟩ :=
    raiseChildren_shape heap height _ w (uniqueIds_of_perm hperm1 hu)
      (fun c hc => hacy c (hperm1.mem_iff.mp hc)) (hperm1.mem_iff.mpr hw) fuel (by omega)
  have hmem2b : ∀ x, x ∈ w :: rw ↔ InSubtree heap ws w x := by
    intro x
    rw [hmem2 x]
    exact ⟨inSubtree_of_mem_iff (fun y hy => hperm1.mem_iff.mp hy),
      inSubtree_of_mem_iff (fun y hy => hperm1.mem_iff.mpr hy)⟩
  have hwp : InSubtree heap ws p w := .child .root hw hpar
  have hpw : p ∉ w :: rw := fun h =>
    not_inSubtree_parent hacy hw hpar ((hmem2b p).mp h)
  have hfirst : (ws.filter (fun y => decide (y ∉ p :: rp))).filter
      (fun y => decide (y ∉ w :: rw)) = ws.filter (fun y => decide (y ∉ p :: rp)) := by
    rw [List.filter_eq_self]
    intro a ha
    have ha2 : a ∉ p :: rp := by simpa using (List.mem_filter.mp ha).2
    have : a ∉ w :: rw := fun h =>
      ha2 ((hmem1 a).mpr (inSubtree_trans hwp ((hmem2b a).mp h)))
    simpa using this
  have hsecond : (p :: rp).filter (fun y => decide (y ∉ w :: rw)) =
      p :: rp.filter (fun y => decide (y ∉ w :: rw)) :=
    List.filter_cons_of_pos (by simpa using hpw)
  have hfinal : (ws.filter (fun y => decide (y ∉ p :: rp)) ++ p :: rp).filter
        (fun y => decide (y ∉ w :: rw)) ++ w :: rw =
      ws.filter (fun y => decide (y ∉ p :: rp)) ++
        ((p :: rp.filter (fun y => decide (y ∉ w :: rw))) ++ (w :: rw)) := by
    rw [List.filter_append, hfirst, hsecond, List.append_assoc]
  refine ⟨ws.filter (fun y => decide (y ∉ p :: rp)),
    rp.filter (fun y => decide (y ∉ w :: rw)), rw, ?_, ?_, hmem2b, ?_, ?_, ?_⟩
  · rw [moveToFront_child heap fuel w p ws hpar, hres1, Option.bind, hres2, hfinal]
  · intro x
    constructor
    · intro hx
      rcases List.mem_append.mp hx with hx | hx
      · rcases List.mem_cons.mp hx with e | hx
        · rw [e]; exact .root
        · exact (hmem1 x).mp (List.mem_cons_of_mem _ (List.mem_filter.mp hx).1)
      · exact inSubtree_trans hwp ((hmem2b x).mp hx)
    · intro hx
      have hx1 := (hmem1 x).mpr hx
      by_cases hxw : x ∈ w :: rw
      · exact List.mem_append_right _ hxw
      · apply List.mem_append_left
        rcases List.mem_cons.mp hx1 with e | hx1
        · rw [e]; exact List.mem_cons_self _ _
        · exact List.mem_cons_of_mem _ (List.mem_filter.mpr ⟨hx1, by simpa using hxw⟩)
  · intro x
    rw [List.mem_filter, decide_eq_true_eq, hmem1 x]
  · intro x hx hxw
    have hxw2 := (hmem2b x).mpr hxw
    rcases List.mem_cons.mp hx with e | hx
    · rw [e] at hxw2; exact hpw hxw2
    · have := (List.mem_filter.mp hx).2
      simp only [decide_eq_true_eq] at this
      exact this hxw2
  · rw [← hfinal]
    exact hperm2.trans hperm1

/-- C9: on a registry with unique ids and acyclic parents, for a window `w` of the sequence
whose parent `p` is in the sequence, `MoveToFront(w)` returns (for every sufficient
recursion budget) `pre ++ (p :: mid) ++ (w :: rest)`: the subtree of `p` is the suffix
`(p :: mid) ++ (w :: rest)` with `p` lowest, inside it the subtree of `w` is the final
suffix `w :: rest` with `w` lowest, and `w` lies above every other child of `p`. For a
window without a parent `MoveToFront` is `RaiseChildren`, and `MoveToFront(nullptr)`
changes nothing. -/
theorem MoveToFront_block_structure (heap : Heap) (ws : List WindowPtr) (w : WindowPtr)
    (hu : UniqueIds heap ws) (hacy : Acyclic heap ws) (hw : w ∈ ws) :
    (∀ p, GetParent heap w = some p → p ∈ ws → ∃ n, ∀ fuel, n ≤ fuel → ∃ pre mid rest,
        MoveToFront heap fuel (some w) ws = some (pre ++ ((p :: mid) ++ (w :: rest))) ∧
        (∀ x, x ∈ (p :: mid) ++ (w :: rest) ↔ (x = p ∨ Descendant heap ws p x)) ∧
        (∀ x, x ∈ w :: rest ↔ (x = w ∨ Descendant heap ws w x)) ∧
        (∀ x, x ∈ pre ↔ (x ∈ ws ∧ x ≠ p ∧ ¬ Descendant heap ws p x)) ∧
        (∀ c ∈ ws, GetParent heap c = some p → c ≠ w →
          Before (pre ++ ((p :: mid) ++ (w :: rest))) c w) ∧
        (pre ++ ((p :: mid) ++ (w :: rest))).Perm ws) ∧
      (GetParent heap w = none → ∀ fuel,
        MoveToFront heap fuel (some w) ws = RaiseChildren heap fuel w ws) ∧
      (∀ fuel, MoveToFront heap fuel none ws = some ws) := by
  obtain ⟨height, hacy⟩ := hacy
  refine ⟨?_, fun hpar fuel => moveToFront_root heap fuel w ws hpar,
    fun fuel => moveToFront_null heap fuel ws⟩
  intro p hpar hp
  refine ⟨height p + 1, fun fuel hfuel => ?_⟩
  obtain ⟨pre, mid, rest, hres, hmemp, hmemw, hmempre, hmid, hperm⟩ :=
    moveToFront_shape heap height ws w p hu hacy hw hpar hp fuel (by omega)
  refine ⟨pre, mid, rest, hres, ?_, ?_, ?_, ?_, hperm⟩
  · intro x; rw [hmemp x, inSubtree_iff]
  · intro x; rw [hmemw x, inSubtree_iff]
  · intro x; rw [hmempre x, inSubtree_iff, not_or]
  · intro c hc hcpar hcw
    have hcsub : InSubtree heap ws p c := .child .root hc hcpar
    have hcnot : ¬ InSubtree heap ws w c :=
      not_inSubtree_of_same_parent hacy hw (hcpar.trans hpar.symm) hcw
    have hc1 : c ∈ p :: mid := by
      rcases List.mem_append.mp ((hmemp c).mpr hcsub) with h | h
      · exact h
      · exact absurd ((hmemw c).mp h) hcnot
    rw [← List.append_assoc]
    refine before_append (List.mem_append_right _ hc1) (List.mem_cons_self _ _) ?_
    intro hwin
    rcases List.mem_append.mp hwin with h | h
    · exact ((hmempre w).mp h).2 (.child .root hw hpar)
    · exact hmid w h .root

theorem chainHeap_acyclic : Acyclic chainHeap [0, 1, 2, 3, 4] :=
  acyclic_of_parent_lt _ _ (by decide)

theorem MoveToFront_block_structure_witness :
    UniqueIds chainHeap [0, 1, 2, 3, 4] ∧ Acyclic chainHeap [0, 1, 2, 3, 4] ∧
      GetParent chainHeap 3 = some 1 ∧
      MoveToFront chainHeap 4 (some 3) [0, 1, 2, 3, 4] = some ([0, 2] ++ (([1] ++ [3, 4]))) ∧
      ∃ n, ∀ fuel, n ≤ fuel → ∃ pre mid rest,
        MoveToFront chainHeap fuel (some 3) [0, 1, 2, 3, 4] =
          some (pre ++ ((1 :: mid) ++ (3 :: rest))) ∧
        (∀ x, x ∈ (1 :: mid) ++ (3 :: rest) ↔
          (x = 1 ∨ Descendant chainHeap [0, 1, 2, 3, 4] 1 x)) ∧
        (∀ x, x ∈ 3 :: rest ↔ (x = 3 ∨ Descendant chainHeap [0, 1, 2, 3, 4] 3 x)) ∧
        (∀ x, x ∈ pre ↔
          (x ∈ [0, 1, 2, 3, 4] ∧ x ≠ 1 ∧ ¬ Descendant chainHeap [0, 1, 2, 3, 4] 1 x)) ∧
        (∀ c ∈ [0, 1, 2, 3, 4], GetParent chainHeap c = some 1 → c ≠ 3 →
          Before (pre ++ ((1 :: mid) ++ (3 :: rest))) c 3) ∧
        (pre ++ ((1 :: mid) ++ (3 :: rest))).Perm [0, 1, 2, 3, 4] :=
  ⟨by decide, chainHeap_acyclic, by decide, by decide,
    (MoveToFront_block_structure chainHeap [0, 1, 2, 3, 4] 3 (by decide) chainHeap_acyclic
      (by decide)).1 1 (by decide) (by decide)⟩

/-- C10, as the claim states it, fails. In the registry `[R, A, B, P, W]` (`A` and `B`
children of `R`, `P` a child of `A`, `W` a child of `P`) `MoveToFront(W)` leaves the
sequence as it is: the grandparent `A` of `W` still lies below its sibling `B`. -/
theorem MoveToFront_grandparent_counterexample :
    UniqueIds chainHeap [0, 1, 2, 3, 4] ∧ Acyclic chainHeap [0, 1, 2, 3, 4] ∧
      MoveToFront chainHeap 5 (some 4) [0, 1, 2, 3, 4] = some [0, 1, 2, 3, 4] ∧
      GetParent chainHeap 4 = some 3 ∧ GetParent chainHeap 3 = some 1 ∧
      GetParent chainHeap 2 = GetParent chainHeap 1 ∧
      ¬ Before [0, 1, 2, 3, 4] 2 1 ∧ Before [0, 1, 2, 3, 4] 1 2 := by
  refine ⟨by decide, chainHeap_acyclic, by decide, by decide, by decide, by decide,
    by decide, by decide⟩

/-- C10, amended: on a registry with unique ids and acyclic parents, for a window `w` of
the sequence whose parent `p` is in the sequence, after `MoveToFront(w)` the parent `p` is
topmost among its own siblings: `p` comes later in the sequence than every other window
that has the same parent pointer as `p`. -/
theorem MoveToFront_parent_topmost_among_siblings (heap : Heap) (ws : List WindowPtr)
    (w p : WindowPtr) (hu : UniqueIds heap ws) (hacy : Acyclic heap ws) (hw : w ∈ ws)
    (hpar : GetParent heap w = some p) (hp : p ∈ ws) :
    ∃ n, ∀ fuel, n ≤ fuel → ∃ res, MoveToFront heap fuel (some w) ws = some res ∧
      ∀ s ∈ ws, GetParent heap s = GetParent heap p → s ≠ p → Before res s p := by
  obtain ⟨height, hacy⟩ := hacy
  refine ⟨height p + 1, fun fuel hfuel => ?_⟩
  obtain ⟨pre, mid, rest, hres, -, -, hmempre, -, -⟩ :=
    moveToFront_shape heap height ws w p hu hacy hw hpar hp fuel (by omega)
  refine ⟨_, hres, ?_⟩
  intro s hs hspar hsp
  have hsnot : ¬ InSubtree heap ws p s := not_inSubtree_of_same_parent hacy hp hspar hsp
  refine before_append ((hmempre s).mpr ⟨hs, hsnot⟩)
    (List.mem_append_left _ (List.mem_cons_self _ _)) ?_
  intro h
  exact ((hmempre p).mp h).2 .root

theorem MoveToFront_parent_topmost_among_siblings_witness :
    UniqueIds chainHeap [0, 1, 2, 3, 4] ∧ Acyclic chainHeap [0, 1, 2, 3, 4] ∧
      MoveToFront chainHeap 4 (some 3) [0, 1, 2, 3, 4] = some [0, 2, 1, 3, 4] ∧
      ∃ n, ∀ fuel, n ≤ fuel → ∃ res,
        MoveToFront chainHeap fuel (some 3) [0, 1, 2, 3, 4] = some res ∧
        ∀ s ∈ [0, 1, 2, 3, 4], GetParent chainHeap s = GetParent chainHeap 1 → s ≠ 1 →
          Before res s 1 :=
  ⟨by decide, chainHeap_acyclic, by decide,
    MoveToFront_parent_topmost_among_siblings chainHeap [0, 1, 2, 3, 4] 3 1 (by decide)
      chainHeap_acyclic (by decide) (by decide) (by decide)⟩

/-! ## Parents stay below their children -/

theorem hitTestLoop_all_false (windowHitTest : WindowPtr → Point → HitResult) (pt : Point)
    (l : List WindowPtr) (h : ∀ x ∈ l, (windowHitTest x pt).toBool = false) :
    hitTestLoop windowHitTest pt l = noHit := by
  induction l with
  | nil => rfl
  | cons a t ih =>
    simp only [hitTestLoop, h a (List.mem_cons_self _ _)]
    exact ih (fun x hx => h x (List.mem_cons_of_mem _ hx))

theorem hitTestLoop_first (windowHitTest : WindowPtr → Point → HitResult) (pt : Point)
    (l1 l2 : List WindowPtr) (w : WindowPtr)
    (h1 : ∀ x ∈ l1, (windowHitTest x pt).toBool = false)
    (hw : (windowHitTest w pt).toBool = true) :
    hitTestLoop windowHitTest pt (l1 ++ w :: l2) = windowHitTest w pt := by
  induction l1 with
  | nil => simp [hitTestLoop, hw]
  | cons a t ih =>
    simp only [List.cons_append, hitTestLoop, h1 a (List.mem_cons_self _ _)]
    exact ih (fun x hx => h1 x (List.mem_cons_of_mem _ hx))

theorem hitTest_winner (windowHitTest : WindowPtr → Point → HitResult) (pt : Point)
    (pre post : List WindowPtr) (w : WindowPtr)
    (hw : (windowHitTest w pt).toBool = true)
    (hpost : ∀ x ∈ post, (windowHitTest x pt).toBool = false) :
    HitTest windowHitTest (pre ++ w :: post) pt = windowHitTest w pt := by
  unfold HitTest
  rw [List.reverse_append, List.reverse_cons, List.append_assoc]
  exact hitTestLoop_first windowHitTest pt post.reverse pre.reverse w
    (fun x hx => hpost x (List.mem_reverse.mp hx)) hw

theorem exists_last_hit (p : WindowPtr → Bool) (ws : List WindowPtr)
    (h : ∃ x ∈ ws, p x = true) :
    ∃ pre w post, ws = pre ++ w :: post ∧ p w = true ∧ ∀ x ∈ post, p x = false := by
  induction ws with
  | nil => obtain ⟨x, hx, _⟩ := h; exact absurd hx (List.not_mem_nil _)
  | cons a t ih =>
    by_cases ht : ∃ x ∈ t, p x = true
    · obtain ⟨pre, w, post, e, hw, hpost⟩ := ih ht
      exact ⟨a :: pre, w, post, by rw [e]; rfl, hw, hpost⟩
    · obtain ⟨x, hx, hpx⟩ := h
      rcases List.mem_cons.mp hx with e | hx
      · subst e
        refine ⟨[], x, t, rfl, hpx, ?_⟩
        intro y hy
        cases hy2 : p y with
        | false => rfl
        | true => exact absurd ⟨y, hy, hy2⟩ ht
      · exact absurd ⟨x, hx, hpx⟩ ht

/-- C11: topmost hit wins. `HitTest(point)` returns the per-window result of the window
with the highest position among the windows whose own `HitTest(point)` is non-empty,
whatever lies below that window; such a window exists as soon as some window is hit; and
the no-hit value is returned exactly when no window of the sequence is hit. -/
theorem HitTest_topmost_hit_wins (windowHitTest : WindowPtr → Point → HitResult)
    (ws : List WindowPtr) (pt : Point) :
    (∀ pre w post, ws = pre ++ w :: post → (windowHitTest w pt).toBool = true →
        (∀ x ∈ post, (windowHitTest x pt).toBool = false) →
        HitTest windowHitTest ws pt = windowHitTest w pt ∧
          ∀ below, HitTest windowHitTest (below ++ w :: post) pt = windowHitTest w pt) ∧
      ((∃ x ∈ ws, (windowHitTest x pt).toBool = true) →
        ∃ pre w post, ws = pre ++ w :: post ∧ (windowHitTest w pt).toBool = true ∧
          (∀ x ∈ post, (windowHitTest x pt).toBool = false) ∧
          HitTest windowHitTest ws pt = windowHitTest w pt) ∧
      (HitTest windowHitTest ws pt = noHit ↔
        ∀ x ∈ ws, (windowHitTest x pt).toBool = false) := by
  refine ⟨?_, ?_, ?_⟩
  · intro pre w post e hw hpost
    exact ⟨by rw [e]; exact hitTest_winner windowHitTest pt pre post w hw hpost,
      fun below => hitTest_winner windowHitTest pt below post w hw hpost⟩
  · intro h
    obtain ⟨pre, w, post, e, hw, hpost⟩ :=
      exists_last_hit (fun x => (windowHitTest x pt).toBool) ws h
    exact ⟨pre, w, post, e, hw, hpost,
      by rw [e]; exact hitTest_winner windowHitTest pt pre post w hw hpost⟩
  · constructor
    · intro hno x hx
      cases hb : (windowHitTest x pt).toBool with
      | false => rfl
      | true =>
        obtain ⟨pre, w, post, e, hw, hpost⟩ :=
          exists_last_hit (fun x => (windowHitTest x pt).toBool) ws ⟨x, hx, hb⟩
        rw [e, hitTest_winner windowHitTest pt pre post w hw hpost] at hno
        rw [hno] at hw
        exact absurd hw (by decide)
    · intro h
      unfold HitTest
      exact hitTestLoop_all_false windowHitTest pt _
        (fun x hx => h x (List.mem_reverse.mp hx))

theorem HitTest_topmost_hit_wins_witness :
    (fun (w : WindowPtr) (_ : Point) =>
        if w = 1 ∨ w = 2 then (⟨1, some w⟩ : HitResult) else noHit) 2 ⟨5, 5⟩
        = ⟨1, some 2⟩ ∧
      HitTest (fun w _ => if w = 1 ∨ w = 2 then ⟨1, some w⟩ else noHit) [0, 1, 2, 3] ⟨5, 5⟩
        = ⟨1, some 2⟩ :=
  ⟨rfl,
    ((HitTest_topmost_hit_wins (fun w _ => if w = 1 ∨ w = 2 then ⟨1, some w⟩ else noHit)
      [0, 1, 2, 3] ⟨5, 5⟩).1 [0, 1] 2 [3] rfl (by decide) (by decide)).1⟩

/-! ## Capture -/

theorem wrapInt32_of_inInt32 (z : Int) (h : InInt32 z) : wrapInt32 z = z := by
  unfold InInt32 at h
  unfold wrapInt32
  omega

theorem startCapture_hit (getRect : WindowPtr → Rect) (m_capture : CaptureInfo)
    (hit : HitResult) (pt : Point) (target : WindowPtr) (hhit : hit.toBool = true)
    (htarget : hit.target = some target) :
    StartCapture getRect m_capture hit pt =
      ⟨true, hit, getRect target,
        ⟨wrapInt32 ((getRect target).x - pt.x), wrapInt32 ((getRect target).y - pt.y)⟩⟩ := by
  simp [StartCapture, hhit, htarget, Rect.Origin]

/-- C12: capture delta. For a non-empty hit result whose target has the rectangle origin
`(ox, oy)` and a pointer at `(px, py)` (the two differences being representable as `int`),
`StartCapture` yields `Captured = true`, `Target = hit`, `Origin` = the rectangle of the
target and `Delta = (ox - px, oy - py)`, so that pointer + `Delta` = `(ox, oy)`; when the
hit result is empty or has no target, the capture state is returned unchanged. -/
theorem StartCapture_delta (getRect : WindowPtr → Rect) (m_capture : CaptureInfo)
    (hit : HitResult) (pt : Point) :
    (∀ target, hit.toBool = true → hit.target = some target →
        InInt32 ((getRect target).x - pt.x) → InInt32 ((getRect target).y - pt.y) →
        StartCapture getRect m_capture hit pt =
          ⟨true, hit, getRect target,
            ⟨(getRect target).x - pt.x, (getRect target).y - pt.y⟩⟩ ∧
        pt.x + (StartCapture getRect m_capture hit pt).Delta.x = (getRect target).Origin.x ∧
        pt.y + (StartCapture getRect m_capture hit pt).Delta.y = (getRect target).Origin.y) ∧
      ((hit.toBool = false ∨ hit.target = none) →
        StartCapture getRect m_capture hit pt = m_capture) := by
  constructor
  · intro target hhit htarget hx hy
    rw [startCapture_hit getRect m_capture hit pt target hhit htarget,
      wrapInt32_of_inInt32 _ hx, wrapInt32_of_inInt32 _ hy]
    refine ⟨rfl, ?_, ?_⟩
    · show pt.x + ((getRect target).x - pt.x) = (getRect target).x
      omega
    · show pt.y + ((getRect target).y - pt.y) = (getRect target).y
      omega
  · intro h
    rcases h with h | h
    · simp [StartCapture, h]
    · cases hb : hit.toBool <;> simp [StartCapture, h, hb]

theorem StartCapture_delta_witness :
    StartCapture (fun _ => ⟨100, 50, 30, 20⟩) ⟨false, noHit, ⟨0, 0, 0, 0⟩, ⟨0, 0⟩⟩
        ⟨1, some 7⟩ ⟨110, 65⟩ = ⟨true, ⟨1, some 7⟩, ⟨100, 50, 30, 20⟩, ⟨-10, -15⟩⟩ ∧
      StartCapture (fun _ => ⟨100, 50, 30, 20⟩) ⟨false, noHit, ⟨0, 0, 0, 0⟩, ⟨0, 0⟩⟩
        ⟨1, none⟩ ⟨110, 65⟩ = ⟨false, noHit, ⟨0, 0, 0, 0⟩, ⟨0, 0⟩⟩ :=
  ⟨((StartCapture_delta (fun _ => ⟨100, 50, 30, 20⟩) ⟨false, noHit, ⟨0, 0, 0, 0⟩, ⟨0, 0⟩⟩
      ⟨1, some 7⟩ ⟨110, 65⟩).1 7 (by decide) rfl (by decide) (by decide)).1,
    (StartCapture_delta (fun _ => ⟨100, 50, 30, 20⟩) ⟨false, noHit, ⟨0, 0, 0, 0⟩, ⟨0, 0⟩⟩
      ⟨1, none⟩ ⟨110, 65⟩).2 (Or.inr rfl)⟩

/-! ## Activation -/

theorem raiseEach_terminates (heap : Heap) (height : WindowPtr → Nat) (n : Nat)
    (IH : ∀ (acc : List WindowPtr) (c : WindowPtr),
      (∀ d ∈ acc, ∀ q, GetParent heap d = some q → height d < height q) → height c < n →
      ∃ r, RaiseChildren heap n c acc = some r) :
    ∀ (cs acc : List WindowPtr),
      (∀ d ∈ acc, ∀ q, GetParent heap d = some q → height d < height q) →
      (∀ c ∈ cs, height c < n) → ∃ r, raiseEach (RaiseChildren heap n) cs acc = some r := by
  intro cs
  induction cs with
  | nil => intro acc _ _; exact ⟨acc, rfl⟩
  | cons c rest ih =>
    intro acc hacy hcs
    obtain ⟨mid, hmid⟩ := IH acc c hacy (hcs c (List.mem_cons_self _ _))
    have hperm := raiseChildren_perm heap n c acc mid hmid
    obtain ⟨r, hr⟩ := ih mid (fun d hd => hacy d (hperm.mem_iff.mp hd))
      (fun x hx => hcs x (List.mem_cons_of_mem _ hx))
    exact ⟨r, by simp only [raiseEach, hmid, Option.bind]; exact hr⟩

theorem raiseChildren_terminates (heap : Heap) (height : WindowPtr → Nat) :
    ∀ (n : Nat) (ws : List WindowPtr) (w : WindowPtr),
      (∀ d ∈ ws, ∀ q, GetParent heap d = some q → height d < height q) → height w < n →
      ∃ r, RaiseChildren heap n w ws = some r := by
  intro n
  induction n with
  | zero => intro ws w _ h; omega
  | succ n ih =>
    intro ws w hacy hn
    have hperm := raiseSingleWindow_perm heap w ws
    simp only [RaiseChildren]
    apply raiseEach_terminates heap height n ih
    · exact fun d hd => hacy d (hperm.mem_iff.mp hd)
    · intro c hc
      have hc2 := (mem_getChildWindows heap _ w c).mp hc
      have := hacy c (hperm.mem_iff.mp hc2.1) w hc2.2
      omega

theorem moveToFront_terminates (heap : Heap) (ws : List WindowPtr) (win : Option WindowPtr)
    (hacy : Acyclic heap ws) :
    ∃ n, ∀ fuel, n ≤ fuel → ∃ r, MoveToFront heap fuel win ws = some r := by
  obtain ⟨height, hacy⟩ := hacy
  cases win with
  | none => exact ⟨0, fun fuel _ => ⟨ws, rfl⟩⟩
  | some w =>
    cases hpar : GetParent heap w with
    | none =>
      refine ⟨height w + 1, fun fuel hfuel => ?_⟩
      rw [moveToFront_root heap fuel w ws hpar]
      exact raiseChildren_terminates heap height fuel ws w hacy (by omega)
    | some p =>
      refine ⟨max (height w) (height p) + 1, fun fuel hfuel => ?_⟩
      rw [moveToFront_child heap fuel w p ws hpar]
      obtain ⟨mid, hmid⟩ := raiseChildren_terminates heap height fuel ws p hacy
        (by have := Nat.le_max_right (height w) (height p); omega)
      have hperm := raiseChildren_perm heap fuel p ws mid hmid
      obtain ⟨r, hr⟩ := raiseChildren_terminates heap height fuel mid w
        (fun d hd => hacy d (hperm.mem_iff.mp hd))
        (by have := Nat.le_max_left (height w) (height p); omega)
      exact ⟨r, by rw [hmid]; exact hr⟩

theorem setActive_other (fuel : Nat) (st : UIState) (a b : WindowPtr)
    (hact : st.m_activeWindow = some a) (hne : a ≠ b) :
    SetActive fuel (some b) st =
      (MoveToFront st.heap fuel (some b) st.m_windows).map (fun ws =>
        ⟨st.heap, ws, some b,
          st.posted ++ [(a, WindowEvent.EVENT_WINDOW_DEACTIVATED)] ++
            [(b, WindowEvent.EVENT_WINDOW_ACTIVATED)]⟩) := by
  have hne2 : ¬ (some b = some a) := by
    intro e; cases e; exact hne rfl
  simp only [SetActive, hact, hne2, if_false]

theorem setActive_same (fuel : Nat) (st : UIState) (win : Option WindowPtr)
    (hact : st.m_activeWindow = win) : SetActive fuel win st = some st := by
  simp [SetActive, hact]

/-- C13: activation symmetry. With `A` the active window and `B` another window,
`SetActive(B)`, whenever it returns, has posted exactly two events, the deactivation event
to `A` and then the activation event to `B`, and has made `B` the active window (the
sequence is permuted, the window objects are untouched); it returns, for every sufficient
recursion budget, when the parent pointers of the registry are acyclic. `SetActive(A)`
while `A` is active returns at once: no event, same active window, same sequence. -/
theorem SetActive_activation_symmetry (st : UIState) (a b : WindowPtr)
    (hact : st.m_activeWindow = some a) (hne : a ≠ b) :
    (∀ fuel st2, SetActive fuel (some b) st = some st2 →
        st2.posted = st.posted ++ [(a, WindowEvent.EVENT_WINDOW_DEACTIVATED),
          (b, WindowEvent.EVENT_WINDOW_ACTIVATED)] ∧
        st2.m_activeWindow = some b ∧ st2.heap = st.heap ∧
        st2.m_windows.Perm st.m_windows) ∧
      (Acyclic st.heap st.m_windows →
        ∃ n, ∀ fuel, n ≤ fuel → ∃ st2, SetActive fuel (some b) st = some st2) ∧
      (∀ fuel, SetActive fuel (some a) st = some st) := by
  refine ⟨?_, ?_, fun fuel => setActive_same fuel st (some a) hact⟩
  · intro fuel st2 h
    rw [setActive_other fuel st a b hact hne] at h
    cases hm : MoveToFront st.heap fuel (some b) st.m_windows with
    | none => rw [hm] at h; cases h
    | some ws =>
      rw [hm] at h
      cases h
      exact ⟨by simp, rfl, rfl, moveToFront_perm st.heap fuel (some b) st.m_windows ws hm⟩
  · intro hacy
    obtain ⟨n, hn⟩ := moveToFront_terminates st.heap st.m_windows (some b) hacy
    refine ⟨n, fun fuel hfuel => ?_⟩
    obtain ⟨r, hr⟩ := hn fuel hfuel
    rw [setActive_other fuel st a b hact hne, hr]
    exact ⟨_, rfl⟩

theorem SetActive_activation_symmetry_witness :
    SetActive 3 (some 2) ⟨familyHeap, [0, 1, 2, 3], some 1, []⟩ =
        some ⟨familyHeap, [0, 1, 3, 2], some 2,
          [(1, WindowEvent.EVENT_WINDOW_DEACTIVATED),
            (2, WindowEvent.EVENT_WINDOW_ACTIVATED)]⟩ ∧
      ((UIState.mk familyHeap [0, 1, 3, 2] (some 2)
          [(1, WindowEvent.EVENT_WINDOW_DEACTIVATED),
            (2, WindowEvent.EVENT_WINDOW_ACTIVATED)]).posted =
        (UIState.mk familyHeap [0, 1, 2, 3] (some 1) []).posted ++
          [(1, WindowEvent.EVENT_WINDOW_DEACTIVATED),
            (2, WindowEvent.EVENT_WINDOW_ACTIVATED)] ∧
        (UIState.mk familyHeap [0, 1, 3, 2] (some 2)
          [(1, WindowEvent.EVENT_WINDOW_DEACTIVATED),
            (2, WindowEvent.EVENT_WINDOW_ACTIVATED)]).m_activeWindow = some 2 ∧
        (UIState.mk familyHeap [0, 1, 3, 2] (some 2)
          [(1, WindowEvent.EVENT_WINDOW_DEACTIVATED),
            (2, WindowEvent.EVENT_WINDOW_ACTIVATED)]).heap =
          (UIState.mk familyHeap [0, 1, 2, 3] (some 1) []).heap ∧
        (UIState.mk familyHeap [0, 1, 3, 2] (some 2)
          [(1, WindowEvent.EVENT_WINDOW_DEACTIVATED),
            (2, WindowEvent.EVENT_WINDOW_ACTIVATED)]).m_windows.Perm
          (UIState.mk familyHeap [0, 1, 2, 3] (some 1) []).m_windows) :=
  ⟨by decide,
    (SetActive_activation_symmetry ⟨familyHeap, [0, 1, 2, 3], some 1, []⟩ 1 2 rfl
      (by decide)).1 3 _ (by decide)⟩

/-! ## Event registration -/

theorem getEventType_null (reg : EventRegistry) (hostId : Nat) :
    GetEventType reg none hostId = (.error (.invalid_argument "event type is null"), reg) :=
  rfl

theorem getEventType_found (reg : EventRegistry) (s : String) (hostId e : Nat)
    (h : reg.m_registeredEvents s = some e) (he : e ≠ UINT32_MAX) :
    GetEventType reg (some s) hostId = (.ok e, reg) := by
  simp [GetEventType, FindEventType, h, he]

theorem getEventType_exhausted (reg : EventRegistry) (s : String)
    (h : FindEventType reg s = UINT32_MAX) :
    GetEventType reg (some s) UINT32_MAX =
      (.error (.out_of_range " too many registered events"),
        ⟨reg.m_registeredEvents, reg.m_registeredEventsReverse,
          reg.hostReturned ++ [UINT32_MAX]⟩) := by
  simp [GetEventType, h]

theorem getEventType_new (reg : EventRegistry) (s : String) (hostId : Nat)
    (h : FindEventType reg s = UINT32_MAX) (hh : hostId ≠ UINT32_MAX) :
    GetEventType reg (some s) hostId =
      (.ok hostId,
        ⟨Function.update reg.m_registeredEvents s (some hostId),
          Function.update reg.m_registeredEventsReverse hostId (some s),
          reg.hostReturned ++ [hostId]⟩) := by
  simp [GetEventType, h, hh]

theorem findEventType_cases (reg : EventRegistry) (s : String) :
    (∃ e, reg.m_registeredEvents s = some e ∧ FindEventType reg s = e) ∨
      (reg.m_registeredEvents s = none ∧ FindEventType reg s = UINT32_MAX) := by
  cases h : reg.m_registeredEvents s with
  | none => right; exact ⟨rfl, by simp [FindEventType, h]⟩
  | some e => left; exact ⟨e, rfl, by simp [FindEventType, h]⟩

theorem getEventType_keeps_consistent (reg : EventRegistry) (type : Option String)
    (hostId : Nat) (hc : EventsConsistent reg)
    (hhost : hostId = UINT32_MAX ∨ hostId ∉ reg.hostReturned) :
    EventsConsistent (GetEventType reg type hostId).2 := by
  cases type with
  | none => exact hc
  | some s =>
    rcases findEventType_cases reg s with ⟨e, he, -⟩ | ⟨hnone, hfind⟩
    · rw [getEventType_found reg s hostId e he (hc.1 s e he).2.1]
      exact hc
    · by_cases hh : hostId = UINT32_MAX
      · rw [hh, getEventType_exhausted reg s hfind]
        refine ⟨fun name e h => ?_, hc.2⟩
        obtain ⟨h1, h2, h3⟩ := hc.1 name e h
        exact ⟨h1, h2, List.mem_append_left _ h3⟩
      · rw [getEventType_new reg s hostId hfind hh]
        have hfresh : hostId ∉ reg.hostReturned := by
          rcases hhost with h | h
          · exact absurd h hh
          · exact h
        constructor
        · intro name e h
          show Function.update reg.m_registeredEventsReverse hostId (some s) e = some name ∧
            e ≠ UINT32_MAX ∧ e ∈ reg.hostReturned ++ [hostId]
          have h2 : Function.update reg.m_registeredEvents s (some hostId) name = some e := h
          by_cases hn : name = s
          · subst hn
            rw [Function.update_same] at h2
            cases h2
            exact ⟨by rw [Function.update_same], hh, by simp⟩
          · rw [Function.update_noteq hn] at h2
            obtain ⟨h3, h4, h5⟩ := hc.1 name e h2
            have hne : e ≠ hostId := fun e2 => hfresh (e2 ▸ h5)
            exact ⟨by rw [Function.update_noteq hne]; exact h3, h4,
              List.mem_append_left _ h5⟩
        · intro e name h
          show Function.update reg.m_registeredEvents s (some hostId) name = some e
          have h2 : Function.update reg.m_registeredEventsReverse hostId (some s) e
              = some name := h
          by_cases he : e = hostId
          · subst he
            rw [Function.update_same] at h2
            cases h2
            rw [Function.update_same]
          · rw [Function.update_noteq he] at h2
            have h3 := hc.2 e name h2
            have hn : name ≠ s := by
              intro e2; rw [e2, hnone] at h3; cases h3
            rw [Function.update_noteq hn]
            exact h3

theorem eventsReachable_consistent (reg : EventRegistry) (h : EventsReachable reg) :
    EventsConsistent reg := by
  induction h with
  | init =>
    constructor
    · intro name e h
      simp [EventRegistry.empty] at h
    · intro e name h
      simp [EventRegistry.empty] at h
  | getEventType type hostId _ hhost ih =>
    exact getEventType_keeps_consistent _ type hostId ih hhost

theorem getEventType_ok_registered (reg : EventRegistry) (s : String) (hostId e : Nat)
    (h : (GetEventType reg (some s) hostId).1 = .ok e) :
    (GetEventType reg (some s) hostId).2.m_registeredEvents s = some e := by
  rcases findEventType_cases reg s with ⟨e2, he2, hf⟩ | ⟨-, hfind⟩
  · by_cases hm : e2 = UINT32_MAX
    · rw [hm] at hf
      by_cases hh : hostId = UINT32_MAX
      · rw [hh, getEventType_exhausted reg s hf] at h; cases h
      · rw [getEventType_new reg s hostId hf hh] at h ⊢
        cases h
        exact Function.update_same _ _ _
    · rw [getEventType_found reg s hostId e2 he2 hm] at h ⊢
      cases h
      exact he2
  · by_cases hh : hostId = UINT32_MAX
    · rw [hh, getEventType_exhausted reg s hfind] at h; cases h
    · rw [getEventType_new reg s hostId hfind hh] at h ⊢
      cases h
      exact Function.update_same _ _ _

/-- C14: bidirectional consistency of the event registry. In every registry reached by
`GetEventType` calls while the host never returns the same id twice, whenever
`GetEventType(name)` succeeds with id `e`, `GetEventName(e)` is `name` afterwards (for a
name registered by this call or by an earlier one); and the name-to-id and id-to-name maps
are inverse to each other. -/
theorem GetEventType_name_roundtrip (reg : EventRegistry) (h : EventsReachable reg) :
    (∀ name hostId e, (hostId = UINT32_MAX ∨ hostId ∉ reg.hostReturned) →
        (GetEventType reg (some name) hostId).1 = .ok e →
        GetEventName (GetEventType reg (some name) hostId).2 e = name) ∧
      (∀ name e, reg.m_registeredEvents name = some e ↔
        reg.m_registeredEventsReverse e = some name) := by
  have hc := eventsReachable_consistent reg h
  constructor
  · intro name hostId e hhost hok
    have hc2 := getEventType_keeps_consistent reg (some name) hostId hc hhost
    have hreg := getEventType_ok_registered reg name hostId e hok
    have hrev := (hc2.1 name e hreg).1
    simp [GetEventName, hrev]
  · intro name e
    exact ⟨fun h1 => (hc.1 name e h1).1, fun h1 => hc.2 e name h1⟩

theorem GetEventType_name_roundtrip_witness :
    EventsReachable (GetEventType (GetEventType EventRegistry.empty (some "timer") 32768).2
        (some "click") 32769).2 ∧
      (GetEventType (GetEventType (GetEventType EventRegistry.empty (some "timer") 32768).2
        (some "click") 32769).2 (some "timer") 32770).1 = .ok 32768 ∧
      GetEventName (GetEventType (GetEventType (GetEventType EventRegistry.empty
        (some "timer") 32768).2 (some "click") 32769).2 (some "timer") 32770).2 32768
        = "timer" :=
  ⟨.getEventType _ _ (.getEventType _ _ .init (Or.inr (by decide))) (Or.inr (by decide)),
    rfl,
    (GetEventType_name_roundtrip _
      (.getEventType _ _ (.getEventType _ _ .init (Or.inr (by decide)))
        (Or.inr (by decide)))).1 "timer" 32770 32768 (Or.inr (by decide)) rfl⟩

/-- C15, as the claim states it, fails: `GetEventType("")` on an empty registry does not
throw; it asks the host for an id and enters the empty name in both maps. -/
theorem GetEventType_empty_name_counterexample :
    (GetEventType EventRegistry.empty (some "") 32768).1 = .ok 32768 ∧
      (GetEventType EventRegistry.empty (some "") 32768).2.hostReturned = [32768] ∧
      (GetEventType EventRegistry.empty (some "") 32768).2.m_registeredEvents ""
        = some 32768 ∧
      (GetEventType EventRegistry.empty (some "") 32768).2.m_registeredEventsReverse 32768
        = some "" :=
  ⟨rfl, rfl, rfl, rfl⟩

/-- C15, amended: `GetEventType(name)` throws `std::invalid_argument` when `name` is null,
without asking the host for an id and without changing either map. Every non-null name,
the empty string included, is looked up: a registered name returns its id and changes
nothing; an unregistered name makes one host request and, unless the host has no id left
(`std::out_of_range`), is entered in both maps. -/
theorem GetEventType_null_rejected (reg : EventRegistry) (hostId : Nat) :
    GetEventType reg none hostId = (.error (.invalid_argument "event type is null"), reg) ∧
      ∀ s : String,
        (∃ e, reg.m_registeredEvents s = some e ∧ e ≠ UINT32_MAX ∧
          GetEventType reg (some s) hostId = (.ok e, reg)) ∨
        (FindEventType reg s = UINT32_MAX ∧ hostId = UINT32_MAX ∧
          GetEventType reg (some s) hostId =
            (.error (.out_of_range " too many registered events"),
              ⟨reg.m_registeredEvents, reg.m_registeredEventsReverse,
                reg.hostReturned ++ [hostId]⟩)) ∨
        (FindEventType reg s = UINT32_MAX ∧ hostId ≠ UINT32_MAX ∧
          GetEventType reg (some s) hostId =
            (.ok hostId,
              ⟨Function.update reg.m_registeredEvents s (some hostId),
                Function.update reg.m_registeredEventsReverse hostId (some s),
                reg.hostReturned ++ [hostId]⟩)) := by
  refine ⟨rfl, fun s => ?_⟩
  by_cases hf : FindEventType reg s = UINT32_MAX
  · right
    by_cases hh : hostId = UINT32_MAX
    · left
      refine ⟨hf, hh, ?_⟩
      rw [hh]
      exact getEventType_exhausted reg s hf
    · right
      exact ⟨hf, hh, getEventType_new reg s hostId hf hh⟩
  · left
    rcases findEventType_cases reg s with ⟨e, he, hfe⟩ | ⟨-, hfind⟩
    · have hm : e ≠ UINT32_MAX := fun e2 => hf (hfe.trans e2)
      exact ⟨e, he, hm, getEventType_found reg s hostId e he hm⟩
    · exact absurd hfind hf

/-! ## Timers -/

theorem deleteTimer_cases (sizeBits : Nat) (tt : TimerTable) (timerID : Nat)
    (r : Except Exception Unit × TimerTable) (h : DeleteTimer sizeBits tt timerID = some r) :
    (timerID > sizeMinusOne sizeBits tt.m_timers.length ∧
        r = (.error (.invalid_argument "invalid timer id"), tt)) ∨
      (¬ timerID > sizeMinusOne sizeBits tt.m_timers.length ∧
        ∃ hostTimer, tt.m_timers[timerID]? = some hostTimer ∧
          r = (.ok (), ⟨tt.m_timers.set timerID 0, tt.removed ++ [hostTimer]⟩)) := by
  unfold DeleteTimer at h
  by_cases hg : timerID > sizeMinusOne sizeBits tt.m_timers.length
  · left
    rw [if_pos hg] at h
    cases h
    exact ⟨hg, rfl⟩
  · right
    rw [if_neg hg] at h
    cases hs : tt.m_timers[timerID]? with
    | none => rw [hs] at h; cases h
    | some hostTimer =>
      rw [hs] at h
      cases h
      exact ⟨hg, hostTimer, rfl, rfl⟩

theorem deleteTimer_length (sizeBits : Nat) (tt : TimerTable) (timerID : Nat)
    (r : Except Exception Unit × TimerTable) (h : DeleteTimer sizeBits tt timerID = some r) :
    r.2.m_timers.length = tt.m_timers.length := by
  rcases deleteTimer_cases sizeBits tt timerID r h with ⟨-, e⟩ | ⟨-, hostTimer, -, e⟩
  · rw [e]
  · rw [e]; simp

theorem runTimerOps_handles (sizeBits : Nat) :
    ∀ (ops : List TimerOp) (tt0 tt : TimerTable) (handles : List Nat),
      runTimerOps sizeBits ops tt0 = some (handles, tt) →
      tt0.m_timers.length + handles.length ≤ 4294967296 →
      handles = List.range' tt0.m_timers.length handles.length ∧
        tt.m_timers.length = tt0.m_timers.length + handles.length := by
  intro ops
  induction ops with
  | nil =>
    intro tt0 tt handles h _
    simp only [runTimerOps] at h
    cases h
    exact ⟨rfl, rfl⟩
  | cons op rest ih =>
    intro tt0 tt handles h hb
    cases op with
    | add interval hostTimer =>
      simp only [runTimerOps] at h
      cases hr : runTimerOps sizeBits rest (AddTimer tt0 interval hostTimer).2 with
      | none => rw [hr] at h; cases h
      | some r =>
        rw [hr] at h
        simp only [Option.map] at h
        cases h
        have hlen : (AddTimer tt0 interval hostTimer).2.m_timers.length
            = tt0.m_timers.length + 1 := by simp [AddTimer]
        have hb2 : tt0.m_timers.length + (r.1.length + 1) ≤ 4294967296 := by
          simpa using hb
        obtain ⟨h1, h2⟩ := ih _ r.2 r.1 hr (by rw [hlen]; omega)
        rw [hlen] at h1 h2
        have hmod : (AddTimer tt0 interval hostTimer).1 = tt0.m_timers.length := by
          show tt0.m_timers.length % 4294967296 = tt0.m_timers.length
          exact Nat.mod_eq_of_lt (by omega)
        refine ⟨?_, ?_⟩
        · show (AddTimer tt0 interval hostTimer).1 :: r.1
            = List.range' tt0.m_timers.length (r.1.length + 1)
          rw [hmod, List.range'_succ, ← h1]
        · show r.2.m_timers.length = tt0.m_timers.length + (r.1.length + 1)
          omega
    | delete timerID =>
      simp only [runTimerOps] at h
      cases hd : DeleteTimer sizeBits tt0 timerID with
      | none => rw [hd] at h; cases h
      | some r =>
        rw [hd] at h
        simp only [Option.bind] at h
        have hlen := deleteTimer_length sizeBits tt0 timerID r hd
        have := ih r.2 tt handles h (by rw [hlen]; exact hb)
        rw [hlen] at this
        exact this

/-- C16: timer handle stability. Starting from an empty timer table, whatever `DeleteTimer`
calls are interleaved (thrown or successful), the `k`-th `AddTimer` call returns the handle
`k`, as long as the handles fit the 32-bit handle type: `AddTimer` returns the current slot
count and appends one slot, and a successful `DeleteTimer` changes neither the slot count
nor any other slot. -/
theorem AddTimer_handles_sequential (sizeBits : Nat) (ops : List TimerOp)
    (handles : List Nat) (tt : TimerTable)
    (hrun : runTimerOps sizeBits ops TimerTable.empty = some (handles, tt))
    (hbound : handles.length ≤ 4294967296) :
    handles = List.range handles.length ∧
      (∀ k, k < handles.length → handles[k]? = some k) ∧
      tt.m_timers.length = handles.length ∧
      (∀ (t : TimerTable) (interval hostTimer : Nat),
        (AddTimer t interval hostTimer).1 = t.m_timers.length % 4294967296 ∧
        (AddTimer t interval hostTimer).2.m_timers = t.m_timers ++ [hostTimer]) ∧
      (∀ (t t2 : TimerTable) (timerID : Nat),
        DeleteTimer sizeBits t timerID = some (.ok (), t2) →
        t2.m_timers.length = t.m_timers.length ∧
        ∀ j, j ≠ timerID → t2.m_timers[j]? = t.m_timers[j]?) := by
  obtain ⟨h1, h2⟩ := runTimerOps_handles sizeBits ops TimerTable.empty tt handles hrun
    (by simpa [TimerTable.empty] using hbound)
  have h3 : handles = List.range handles.length := by
    rw [List.range_eq_range']
    simpa [TimerTable.empty] using h1
  refine ⟨h3, ?_, by simpa [TimerTable.empty] using h2, fun t interval hostTimer => ⟨rfl, rfl⟩,
    ?_⟩
  · intro k hk
    rw [h3]
    exact List.getElem?_range hk
  · intro t t2 timerID hd
    rcases deleteTimer_cases sizeBits t timerID _ hd with ⟨-, e⟩ | ⟨-, hostTimer, -, e⟩
    · cases e
    · cases e
      refine ⟨by simp, fun j hj => ?_⟩
      show (t.m_timers.set timerID 0)[j]? = t.m_timers[j]?
      rw [List.getElem?_set_ne (Ne.symm hj)]

theorem AddTimer_handles_sequential_witness :
    runTimerOps 64 [.add 10 101, .add 20 102, .delete 0, .add 30 103, .delete 7, .add 40 104]
        TimerTable.empty = some ([0, 1, 2, 3], ⟨[0, 102, 103, 104], [101]⟩) ∧
      [0, 1, 2, 3] = List.range ([0, 1, 2, 3] : List Nat).length :=
  ⟨rfl,
    (AddTimer_handles_sequential 64
      [.add 10 101, .add 20 102, .delete 0, .add 30 103, .delete 7, .add 40 104]
      [0, 1, 2, 3] ⟨[0, 102, 103, 104], [101]⟩ rfl (by decide)).1⟩

/-- C17, as the claim states it, fails: after `AddTimer` (returning handle 0) and one
successful `DeleteTimer(0)`, a second `DeleteTimer(0)` does not throw; it returns normally
after asking the host to remove the null handle stored in the slot. -/
theorem DeleteTimer_twice_counterexample :
    AddTimer TimerTable.empty 10 101 = (0, ⟨[101], []⟩) ∧
      DeleteTimer 64 ⟨[101], []⟩ 0 = some (.ok (), ⟨[0], [101]⟩) ∧
      DeleteTimer 64 ⟨[0], [101]⟩ 0 = some (.ok (), ⟨[0], [101, 0]⟩) ∧
      ¬ ∃ what, DeleteTimer 64 ⟨[0], [101]⟩ 0 =
        some (.error (.invalid_argument what), ⟨[0], [101]⟩) := by
  refine ⟨rfl, rfl, rfl, ?_⟩
  rintro ⟨what, h⟩
  have h2 : DeleteTimer 64 ⟨[0], [101]⟩ 0 = some (.ok (), ⟨[0], [101, 0]⟩) := rfl
  rw [h2] at h
  cases h

/-- C17, amended: for every timer table and every handle `h`, after one successful
`DeleteTimer(h)` a second `DeleteTimer(h)` does not fail: it returns normally, leaves the
slot table unchanged (the slot already holds the null handle) and asks the host once more
to remove a timer, this time the null handle `0`. -/
theorem DeleteTimer_twice_succeeds (sizeBits : Nat) (tt tt1 : TimerTable) (h : Nat)
    (hfirst : DeleteTimer sizeBits tt h = some (.ok (), tt1)) :
    DeleteTimer sizeBits tt1 h = some (.ok (), ⟨tt1.m_timers, tt1.removed ++ [0]⟩) ∧
      tt1.m_timers[h]? = some 0 ∧ tt1.m_timers.length = tt.m_timers.length := by
  rcases deleteTimer_cases sizeBits tt h _ hfirst with ⟨-, e⟩ | ⟨hg, hostTimer, hs, e⟩
  · cases e
  · cases e
    have hlt : h < tt.m_timers.length := by
      by_contra hc
      rw [List.getElem?_eq_none (by omega)] at hs
      cases hs
    have hslot : (tt.m_timers.set h 0)[h]? = some 0 := by
      rw [List.getElem?_set_self (by simpa using hlt)]
    refine ⟨?_, hslot, by simp⟩
    show DeleteTimer sizeBits ⟨tt.m_timers.set h 0, tt.removed ++ [hostTimer]⟩ h = _
    unfold DeleteTimer
    have hg2 : ¬ h > sizeMinusOne sizeBits (tt.m_timers.set h 0).length := by
      rw [List.length_set]; exact hg
    simp only [hg2, if_false, hslot, List.set_set]

theorem DeleteTimer_twice_succeeds_witness :
    DeleteTimer 64 ⟨[101, 102], []⟩ 1 = some (.ok (), ⟨[101, 0], [102]⟩) ∧
      DeleteTimer 64 ⟨[101, 0], [102]⟩ 1 = some (.ok (), ⟨[101, 0], [102] ++ [0]⟩) :=
  ⟨rfl, (DeleteTimer_twice_succeeds 64 ⟨[101, 102], []⟩ ⟨[101, 0], [102]⟩ 1 rfl).1⟩

theorem sizeMinusOne_of_pos (sizeBits n : Nat) (hn : 0 < n) (hfit : n < 2 ^ sizeBits) :
    sizeMinusOne sizeBits n = n - 1 := by
  unfold sizeMinusOne
  have h1 : n + 2 ^ sizeBits - 1 = (n - 1) + 2 ^ sizeBits := by omega
  rw [h1, Nat.add_mod_right, Nat.mod_eq_of_lt (by omega)]

/-- The range guard of `DeleteTimer` is exact on a table that holds at least one slot. -/
theorem deleteTimer_guard_of_pos (sizeBits n h : Nat) (hn : 0 < n)
    (hfit : n < 2 ^ sizeBits) : h > sizeMinusOne sizeBits n ↔ h ≥ n := by
  rw [sizeMinusOne_of_pos sizeBits n hn hfit]
  omega

/-- On the empty table the range guard of `DeleteTimer` lets every 32-bit handle through,
and the call goes on to read `m_timers[timerID]` in an empty vector. -/
theorem deleteTimer_empty_undefined (sizeBits h : Nat) (hbits : 32 ≤ sizeBits)
    (hh : h < 4294967296) :
    ¬ h > sizeMinusOne sizeBits 0 ∧ DeleteTimer sizeBits TimerTable.empty h = none := by
  have hpow : 4294967296 ≤ 2 ^ sizeBits := by
    have := Nat.pow_le_pow_right (show 0 < 2 by decide) hbits
    simpa using this
  have hs : sizeMinusOne sizeBits 0 = 2 ^ sizeBits - 1 := by
    unfold sizeMinusOne
    rw [Nat.zero_add]
    exact Nat.mod_eq_of_lt (by omega)
  have hg : ¬ h > sizeMinusOne sizeBits 0 := by rw [hs]; omega
  refine ⟨hg, ?_⟩
  unfold DeleteTimer
  have hg2 : ¬ h > sizeMinusOne sizeBits TimerTable.empty.m_timers.length := hg
  simp only [hg2, if_false]
  rfl

/-- C18 fails on the code for the table without slots: on the empty table, with a 64-bit
or a 32-bit `size_t`, `m_timers.size() - 1` is the largest value of `size_t`, the guard
`timerID > m_timers.size() - 1` is false for handle 0, no exception is thrown, and the call
reads `m_timers[0]` outside the vector. -/
theorem DeleteTimer_empty_table_not_rejected :
    sizeMinusOne 64 0 = 18446744073709551615 ∧ sizeMinusOne 32 0 = 4294967295 ∧
      ¬ (0 > sizeMinusOne 64 0) ∧ ¬ (0 > sizeMinusOne 32 0) ∧
      DeleteTimer 64 TimerTable.empty 0 = none ∧ DeleteTimer 32 TimerTable.empty 0 = none ∧
      ¬ ∃ what, DeleteTimer 64 TimerTable.empty 0 =
        some (.error (.invalid_argument what), TimerTable.empty) := by
  refine ⟨by decide, by decide, by decide, by decide, ?_, ?_, ?_⟩
  · exact (deleteTimer_empty_undefined 64 0 (by decide) (by decide)).2
  · exact (deleteTimer_empty_undefined 32 0 (by decide) (by decide)).2
  · rintro ⟨what, h⟩
    rw [(deleteTimer_empty_undefined 64 0 (by decide) (by decide)).2] at h
    cases h

/-! ## Tooltip -/

theorem removeWindow_heap (st : UIState) (id : String) : (RemoveWindow st id).heap = st.heap := by
  unfold RemoveWindow
  cases st.m_windows.find? (fun window => GetId st.heap window == id) <;> rfl

theorem removeWindow_mem (st : UIState) (id : String) (x : WindowPtr)
    (h : x ∈ (RemoveWindow st id).m_windows) : x ∈ st.m_windows := by
  unfold RemoveWindow at h
  cases hf : st.m_windows.find? (fun window => GetId st.heap window == id) with
  | none => rw [hf] at h; exact h
  | some found =>
    rw [hf] at h
    exact List.mem_of_mem_eraseP h

theorem removeWindow_allocated (st : UIState) (id : String) (h : Allocated st) :
    Allocated (RemoveWindow st id) := by
  intro p hp
  rw [removeWindow_heap]
  exact h p (removeWindow_mem st id p hp)

theorem removeWindow_last (heap : Heap) (ws : List WindowPtr) (n : WindowPtr)
    (act : Option WindowPtr) (posted : List (WindowPtr × WindowEvent)) (id : String)
    (hws : ∀ x ∈ ws, GetId heap x ≠ id) (hn : GetId heap n = id) :
    RemoveWindow ⟨heap, ws ++ [n], act, posted⟩ id =
      ⟨heap, ws, if act = some n then none else act, posted⟩ := by
  have hpre : ∀ x ∈ ws, ¬ ((GetId heap x == id) = true) := by
    intro x hx hxe
    exact hws x hx (beq_iff_eq.mp hxe)
  have hnb : (GetId heap n == id) = true := beq_iff_eq.mpr hn
  have hf : (ws ++ [n]).find? (fun window => GetId heap window == id) = some n := by
    rw [List.find?_eq_some]
    exact ⟨hnb, ws, [], rfl, fun a ha => by simpa using hpre a ha⟩
  have he : (ws ++ [n]).eraseP (fun window => GetId heap window == id) = ws := by
    rw [List.eraseP_append_right _ hpre]
    have : [n].eraseP (fun window => GetId heap window == id) = [] :=
      List.eraseP_cons_of_pos hnb
    rw [this, List.append_nil]
  simp only [RemoveWindow, hf, he]

theorem hide_other (tip : Tooltip × UIState) (other : Option WidgetPtr)
    (h : other ≠ tip.1.m_owner) : Tooltip.Hide tip other = tip := by
  have : (other == tip.1.m_owner) = false := by simpa using h
  simp [Tooltip.Hide, this]

theorem hide_owner (tip : Tooltip × UIState) (wnd : WindowPtr)
    (h : tip.1.m_wnd = some wnd) :
    Tooltip.Hide tip tip.1.m_owner = (⟨none, tip.1.m_owner⟩, RemoveWindow tip.2 Tooltip.id) := by
  simp [Tooltip.Hide, h]

theorem hide_allocated (tip : Tooltip × UIState) (owner : Option WidgetPtr)
    (h : Allocated tip.2) : Allocated (Tooltip.Hide tip owner).2 := by
  unfold Tooltip.Hide
  split
  · exact removeWindow_allocated _ _ h
  · exact h

theorem show_cases (getText : WindowPtr → String) (labelRect size : Rect) (flags : Nat)
    (tip tip1 : Tooltip × UIState) (owner : Option WidgetPtr) (pos : Point) (text : String)
    (hshow : Tooltip.Show getText labelRect size flags tip owner pos text = (.ok (), tip1)) :
    (Tooltip.alreadyShown getText tip owner text = true ∧ tip1 = tip) ∨
      (Tooltip.alreadyShown getText tip owner text = false ∧
        ∃ s rect, (∀ w ∈ (Tooltip.Hide tip tip.1.m_owner).2.m_windows,
            GetId (Tooltip.Hide tip tip.1.m_owner).2.heap w ≠ s) ∧ s = Tooltip.id ∧
          tip1 = (⟨some (Tooltip.Hide tip tip.1.m_owner).2.heap.length, owner⟩,
            ⟨(Tooltip.Hide tip tip.1.m_owner).2.heap ++ [⟨s, none, rect, flags⟩],
              (Tooltip.Hide tip tip.1.m_owner).2.m_windows ++
                [(Tooltip.Hide tip tip.1.m_owner).2.heap.length],
              (Tooltip.Hide tip tip.1.m_owner).2.m_activeWindow,
              (Tooltip.Hide tip tip.1.m_owner).2.posted⟩)) := by
  unfold Tooltip.Show at hshow
  cases ha : Tooltip.alreadyShown getText tip owner text with
  | true =>
    left
    rw [ha] at hshow
    simp only [if_true] at hshow
    cases hshow
    exact ⟨rfl, rfl⟩
  | false =>
    right
    refine ⟨rfl, ?_⟩
    rw [ha] at hshow
    simp only [Bool.false_eq_true, if_false] at hshow
    generalize hrect : (⟨if wrapInt32 (pos.x + labelRect.w) > size.w
        then wrapInt32 (size.w - labelRect.w) else pos.x,
        wrapInt32 (pos.y - wrapInt32 (labelRect.h + 4)), labelRect.w, labelRect.h⟩ : Rect)
        = rect at hshow
    rcases addWindow_cases (Tooltip.Hide tip tip.1.m_owner).2 (some Tooltip.id) none rect flags
      with ⟨⟨e, he⟩, hst⟩ | ⟨s, hid, hfresh, hadd⟩
    · have hpair : AddWindow (Tooltip.Hide tip tip.1.m_owner).2 (some Tooltip.id) none rect
          flags = (.error e, (Tooltip.Hide tip tip.1.m_owner).2) := Prod.ext he hst
      rw [hpair] at hshow
      cases hshow
    · rw [hadd] at hshow
      cases hshow
      cases hid
      exact ⟨Tooltip.id, rect, hfresh, rfl, rfl⟩

/-- C19: tooltip ownership guard. After `Show(owner, p, text)` has returned normally, the
tooltip records `owner` and holds a window reference; `Hide(other)` with `other` different
from `owner` changes nothing, neither the tooltip (reference and owner) nor the registry;
`Hide(owner)` clears the reference and removes the window with the tooltip id from the
registry. When this `Show` created the overlay window on a manager whose windows are all
live objects, the overlay is in the registry under the tooltip id after `Show`, and after
`Hide(owner)` neither it nor any window with the tooltip id is in the registry. -/
theorem Tooltip_hide_ownership_guard (getText : WindowPtr → String) (labelRect size : Rect)
    (flags : Nat) (tip tip1 : Tooltip × UIState) (owner : Option WidgetPtr) (pos : Point)
    (text : String)
    (hshow : Tooltip.Show getText labelRect size flags tip owner pos text = (.ok (), tip1)) :
    tip1.1.m_owner = owner ∧ (∃ wnd, tip1.1.m_wnd = some wnd) ∧
      (∀ other, other ≠ owner → Tooltip.Hide tip1 other = tip1) ∧
      Tooltip.Hide tip1 owner = (⟨none, owner⟩, RemoveWindow tip1.2 Tooltip.id) ∧
      (Tooltip.alreadyShown getText tip owner text = false → Allocated tip.2 →
        ∃ wnd, tip1.1.m_wnd = some wnd ∧ wnd ∈ tip1.2.m_windows ∧
          GetId tip1.2.heap wnd = Tooltip.id ∧
          wnd ∉ (Tooltip.Hide tip1 owner).2.m_windows ∧
          ∀ x ∈ (Tooltip.Hide tip1 owner).2.m_windows,
            GetId (Tooltip.Hide tip1 owner).2.heap x ≠ Tooltip.id) := by
  have hbase : tip1.1.m_owner = owner ∧ ∃ wnd, tip1.1.m_wnd = some wnd := by
    rcases show_cases getText labelRect size flags tip tip1 owner pos text hshow with
      ⟨ha, e⟩ | ⟨-, s, rect, -, -, e⟩
    · subst e
      unfold Tooltip.alreadyShown at ha
      cases hw : tip1.1.m_wnd with
      | none => rw [hw] at ha; cases ha
      | some wnd =>
        rw [hw] at ha
        simp only [Bool.and_eq_true, beq_iff_eq] at ha
        exact ⟨ha.1, wnd, rfl⟩
    · rw [e]; exact ⟨rfl, _, rfl⟩
  obtain ⟨hown, wnd, hwnd⟩ := hbase
  have hhide : Tooltip.Hide tip1 owner = (⟨none, owner⟩, RemoveWindow tip1.2 Tooltip.id) := by
    have := hide_owner tip1 wnd hwnd
    rw [hown] at this
    exact this
  refine ⟨hown, ⟨wnd, hwnd⟩, fun other ho => hide_other tip1 other (by rw [hown]; exact ho),
    hhide, ?_⟩
  intro hnew halloc
  rcases show_cases getText labelRect size flags tip tip1 owner pos text hshow with
    ⟨ha, -⟩ | ⟨-, s, rect, hfresh, hs, e⟩
  · rw [hnew] at ha; cases ha
  · have hal := hide_allocated tip tip.1.m_owner halloc
    generalize Tooltip.Hide tip tip.1.m_owner = hidden at hfresh e hal
    have hnewid : GetId (hidden.2.heap ++ [(⟨s, none, rect, flags⟩ : Window)])
        hidden.2.heap.length = s := by simp [GetId, deref_create]
    have hold : ∀ x ∈ hidden.2.m_windows,
        GetId (hidden.2.heap ++ [(⟨s, none, rect, flags⟩ : Window)]) x ≠ s := by
      intro x hx
      rw [getId_append_of_lt hidden.2.heap _ x (hal x hx)]
      exact hfresh x hx
    have hnotin : hidden.2.heap.length ∉ hidden.2.m_windows :=
      fun hm => Nat.lt_irrefl _ (hal _ hm)
    rw [hhide, e]
    subst hs
    refine ⟨hidden.2.heap.length, rfl, by simp, hnewid, ?_, ?_⟩
    · show hidden.2.heap.length ∉ (RemoveWindow _ Tooltip.id).m_windows
      rw [removeWindow_last _ _ _ _ _ Tooltip.id hold hnewid]
      exact hnotin
    · show ∀ x ∈ (RemoveWindow _ Tooltip.id).m_windows,
        GetId (RemoveWindow _ Tooltip.id).heap x ≠ Tooltip.id
      rw [removeWindow_last _ _ _ _ _ Tooltip.id hold hnewid]
      exact hold

theorem Tooltip_hide_ownership_guard_witness :
    Tooltip.Show (fun _ => "") ⟨0, 0, 40, 12⟩ ⟨0, 0, 640, 480⟩ 7
        (⟨none, none⟩, ⟨familyHeap, [0, 1, 2, 3], none, []⟩) (some 5) ⟨620, 100⟩ "hint" =
        (.ok (), tooltipShown) ∧
      Tooltip.Hide tooltipShown (some 9) = tooltipShown ∧
      Tooltip.Hide tooltipShown (some 5) =
        (⟨none, some 5⟩, RemoveWindow tooltipShown.2 Tooltip.id) ∧
      (RemoveWindow tooltipShown.2 Tooltip.id).m_windows = [0, 1, 2, 3] :=
  ⟨rfl,
    (Tooltip_hide_ownership_guard (fun _ => "") ⟨0, 0, 40, 12⟩ ⟨0, 0, 640, 480⟩ 7
      (⟨none, none⟩, ⟨familyHeap, [0, 1, 2, 3], none, []⟩) tooltipShown
      (some 5) ⟨620, 100⟩ "hint" rfl).2.2.1 (some 9) (by decide),
    (Tooltip_hide_ownership_guard (fun _ => "") ⟨0, 0, 40, 12⟩ ⟨0, 0, 640, 480⟩ 7
      (⟨none, none⟩, ⟨familyHeap, [0, 1, 2, 3], none, []⟩) tooltipShown
      (some 5) ⟨620, 100⟩ "hint" rfl).2.2.2.1,
    by decide⟩

/-! ## The exact order after `RaiseChildren` -/

theorem preorder_unfold (heap : Heap) (ws : List WindowPtr) (height : WindowPtr → Nat)
    (hacy : ∀ c ∈ ws, ∀ q, GetParent heap c = some q → height c < height q)
    (fuel : Nat) (x : WindowPtr) (hx : height x < fuel) :
    preorder heap ws fuel x =
      x :: (GetChildWindows heap ws x).flatMap (preorder heap ws fuel) := by
  rw [preorder_pos heap ws fuel x (by omega)]
  congr 1
  apply List.flatMap_congr
  intro c hc
  have hc2 := (mem_getChildWindows heap ws x c).mp hc
  have hlt := hacy c hc2.1 x hc2.2
  exact preorder_fuel heap ws height hacy (fuel - 1) fuel c (by omega) (by omega)

/-- C20: the exact splice order. On a registry with unique ids and acyclic parents, for a
window `w` of the sequence, `RaiseChildren(w)` returns for every sufficient recursion
budget, and what it returns is: the windows outside the subtree of `w` in their original
relative order, followed by the depth-first pre-order listing of the subtree of `w`, in
which every node is followed by the listings of its children taken in their order in the
sequence before the raise. The listing holds exactly `w` and its descendants, and the
result is a permutation of the original sequence. -/
theorem RaiseChildren_exact_splice_order (heap : Heap) (ws : List WindowPtr) (w : WindowPtr)
    (hu : UniqueIds heap ws) (hacy : Acyclic heap ws) (hw : w ∈ ws) :
    ∃ n, ∀ fuel, n ≤ fuel →
      RaiseChildren heap fuel w ws =
        some (ws.filter (fun x => decide (x ∉ preorder heap ws n w)) ++ preorder heap ws n w) ∧
      preorder heap ws fuel w = preorder heap ws n w ∧
      (∀ x, x ∈ preorder heap ws n w ↔ (x = w ∨ Descendant heap ws w x)) ∧
      (∀ x, (x = w ∨ Descendant heap ws w x) →
        preorder heap ws fuel x =
          x :: (GetChildWindows heap ws x).flatMap (preorder heap ws fuel)) ∧
      (ws.filter (fun x => decide (x ∉ preorder heap ws n w)) ++ preorder heap ws n w).Perm
        ws := by
  obtain ⟨height, hacy⟩ := hacy
  refine ⟨height w + 1, fun fuel hfuel => ?_⟩
  have hfu := preorder_fuel heap ws height hacy fuel (height w + 1) w (by omega) (by omega)
  have hres := raiseChildren_eq_moveBlock heap height fuel ws w hu hacy hw (by omega)
  rw [hfu] at hres
  refine ⟨hres, hfu, ?_, ?_, ?_⟩
  · intro x
    rw [← inSubtree_iff]
    exact ⟨mem_preorder_inSubtree heap ws _ w x,
      fun hx => inSubtree_mem_preorder heap ws height hacy _ w x hx (by omega)⟩
  · intro x hx
    have hsub := (inSubtree_iff heap ws w x).mpr hx
    have hh : x = w ∨ height x < height w := inSubtree_height hacy hsub
    apply preorder_unfold heap ws height hacy fuel x
    rcases hh with e | e
    · rw [e]; omega
    · omega
  · exact raiseChildren_perm heap fuel w ws _ hres

theorem RaiseChildren_exact_splice_order_witness :
    UniqueIds chainHeap [3, 0, 4, 1, 2] ∧ Acyclic chainHeap [3, 0, 4, 1, 2] ∧
      RaiseChildren chainHeap 3 1 [3, 0, 4, 1, 2] = some ([0, 2] ++ [1, 3, 4]) ∧
      preorder chainHeap [3, 0, 4, 1, 2] 3 1 = [1, 3, 4] ∧
      ∃ n, ∀ fuel, n ≤ fuel →
        RaiseChildren chainHeap fuel 1 [3, 0, 4, 1, 2] =
          some ([3, 0, 4, 1, 2].filter
              (fun x => decide (x ∉ preorder chainHeap [3, 0, 4, 1, 2] n 1)) ++
            preorder chainHeap [3, 0, 4, 1, 2] n 1) ∧
        preorder chainHeap [3, 0, 4, 1, 2] fuel 1 = preorder chainHeap [3, 0, 4, 1, 2] n 1 ∧
        (∀ x, x ∈ preorder chainHeap [3, 0, 4, 1, 2] n 1 ↔
          (x = 1 ∨ Descendant chainHeap [3, 0, 4, 1, 2] 1 x)) ∧
        (∀ x, (x = 1 ∨ Descendant chainHeap [3, 0, 4, 1, 2] 1 x) →
          preorder chainHeap [3, 0, 4, 1, 2] fuel x =
            x :: (GetChildWindows chainHeap [3, 0, 4, 1, 2] x).flatMap
              (preorder chainHeap [3, 0, 4, 1, 2] fuel)) ∧
        ([3, 0, 4, 1, 2].filter
            (fun x => decide (x ∉ preorder chainHeap [3, 0, 4, 1, 2] n 1)) ++
          preorder chainHeap [3, 0, 4, 1, 2] n 1).Perm [3, 0, 4, 1, 2] :=
  ⟨by decide, acyclic_of_parent_lt _ _ (by decide), by decide, by decide,
    RaiseChildren_exact_splice_order chainHeap [3, 0, 4, 1, 2] 1 (by decide)
      (acyclic_of_parent_lt _ _ (by decide)) (by decide)⟩

/-! ## A raise through a window object that is not in the registry -/

end CoreUI
